import Mathlib

/-!
Verification of the doctato tutorial-generation pipeline.

This file gives a shallow embedding, in Lean 4, of the core of the
repository's multi-stage LLM orchestration pipeline:

  * `src/lib/llm.ts`      — the Completion Gateway `callLlm` with its
    process-wide prompt→response cache;
  * `src/api/generate-tutorial/route.ts` — the Retry-Validate Loop
    `callLlmWithRetry`, the four stage validators (abstractions,
    relationships, chapter order, chapter body), filename derivation and
    the pipeline driver inside `POST`;
  * `src/lib/utils.ts`    — `sanitizeFilename`, `getContentForIndices`
    and `ensureAllAbstractionsInRelationships`.

JavaScript strings are modelled as Lean `String`s (operated on through
their `List Char` data so that everything reduces in the kernel), JS
numbers occurring as indices as `Int` (`NaN` is represented by `Option`
failure at parse sites), and dynamically-typed YAML values by small
inductive types covering the shapes the validators inspect.  Stateful
pieces (the gateway cache) are explicit state passing; the external LLM
provider is an oracle parameter.
-/

/-! ### JavaScript primitive modelling -/

/-- ASCII whitespace as matched by the JS regex class `\s` and by
`String.prototype.trim` (Unicode space characters are not modelled). -/
def isSpaceJs (c : Char) : Bool :=
  c = ' ' || c = '\t' || c = '\n' || c = '\r' || c.toNat = 11 || c.toNat = 12

/-- Strip leading and trailing JS whitespace from a character list. -/
def trimList (l : List Char) : List Char :=
  ((l.dropWhile isSpaceJs).reverse.dropWhile isSpaceJs).reverse

/-- Models `String.prototype.trim`. -/
def jsTrim (s : String) : String := ⟨trimList s.data⟩

/-- The decimal digit character for `n < 10`. -/
def digitChar10 (n : Nat) : Char := Char.ofNat (48 + n)

/-- Decimal digits of `n`, most significant first; fuelled so that the
definition is structural and kernel-reducible.  `natDecimal` below always
supplies enough fuel. -/
def natDecimalAux : Nat → Nat → List Char
  | 0, _ => []
  | fuel + 1, n =>
    if n < 10 then [digitChar10 n]
    else natDecimalAux fuel (n / 10) ++ [digitChar10 (n % 10)]

/-- Decimal digits of `n`, models the JS conversion `String(n)` for a
non-negative integer. -/
def natDecimal (n : Nat) : List Char := natDecimalAux (n + 1) n

/-- `String(n)` for a natural number. -/
def natDecimalStr (n : Nat) : String := ⟨natDecimal n⟩

/-- `String(i)` for a JS integer (possibly negative). -/
def intDecimalStr (i : Int) : String :=
  if i < 0 then "-" ++ natDecimalStr i.natAbs else natDecimalStr i.toNat

/-- Numeric value of a digit list (used by `jsParseInt`). -/
def digitsVal (l : List Char) : Nat :=
  l.foldl (fun a c => a * 10 + (c.toNat - 48)) 0

/-- Models `parseInt(s, 10)`: skip leading whitespace, optional sign,
then the maximal run of decimal digits; `none` models `NaN` (no digits).
Trailing garbage is ignored, exactly as in JS. -/
def jsParseInt (s : String) : Option Int :=
  let l := s.data.dropWhile isSpaceJs
  let signAndRest : Int × List Char :=
    match l with
    | '-' :: rest => (-1, rest)
    | '+' :: rest => (1, rest)
    | _ => (1, l)
  let ds := signAndRest.2.takeWhile Char.isDigit
  if ds.isEmpty then none else some (signAndRest.1 * (digitsVal ds : Int))

/-- Models the JS `||` default on an optional string: `undefined` and the
empty string are both falsy. -/
def jsStrOr (o : Option String) (dflt : String) : String :=
  match o with
  | some s => if s = "" then dflt else s
  | none => dflt

/-- Models `a || b` on strings (empty string is falsy). -/
def jsStrOrStr (s dflt : String) : String := if s = "" then dflt else s

/-- Models `missing.join(sep)` on a list of rendered elements. -/
def joinSep (sep : String) : List String → String
  | [] => ""
  | [x] => x
  | x :: y :: rest => x ++ sep ++ joinSep sep (y :: rest)

/-- First occurrence of the pattern `pat` inside `l`: returns the part
before the pattern and the part after it.  Used to model JS regex /
`String.prototype.match` searches for literal fence markers. -/
def findSub (pat : List Char) : List Char → Option (List Char × List Char)
  | [] => if pat.isEmpty then some ([], []) else none
  | c :: cs =>
    if pat.isPrefixOf (c :: cs) then some ([], (c :: cs).drop pat.length)
    else
      match findSub pat cs with
      | some (pre, post) => some (c :: pre, post)
      | none => none

/-- Case-insensitive literal match of `pat` as a prefix of `s`; returns the
remainder on success.  Models a case-insensitively matched literal part of a
JS regex with the `i` flag (ASCII case folding). -/
def stripCI : List Char → List Char → Option (List Char)
  | [], rest => some rest
  | _ :: _, [] => none
  | p :: ps, c :: cs => if c.toLower = p.toLower then stripCI ps cs else none

/-! ### Completion Gateway (`src/lib/llm.ts`)

The external Google provider is modelled as an oracle
`provider : Nat → String → ProviderOutcome` giving the outcome of the
`k`-th provider request of the process for a given prompt.  All provider
failure branches of `callLlm` (no response object, safety block, abnormal
finish reason, thrown exception) deliver their distinguishing information
only through the error message, so they are collapsed into `.err msg`
with the message taken as the oracle's datum.  The successful branch and
the empty-response-text branch are kept explicit because they decide the
cache write. -/

inductive ProviderOutcome where
  | ok (text : String)
  | err (msg : String)
deriving DecidableEq, Repr

/-- Result record of `callLlm` (`LlmLlmCallResult` in `src/lib/types.ts`). -/
structure LlmCallResult where
  success : Bool
  text : Option String
  error : Option String
deriving DecidableEq, Repr

/-- Gateway state: the process-lifetime `cache : Map<string,string>` of
`src/lib/llm.ts`, plus two instrumentation counters — the number of
provider requests issued and the number of `callLlm` invocations — used to
state the "no second provider request" and "exactly maxAttempts gateway
invocations" properties. -/
structure GwState where
  cache : List (String × String)
  providerCalls : Nat
  gwCalls : Nat
deriving DecidableEq, Repr

/-- `cache.get(p)` / `cache.has(p)`.  The JS `Map.set` is modelled by
prepending, so lookup takes the first (most recent) binding, which is
observationally the same as overwriting. -/
def cacheGet (cache : List (String × String)) (p : String) : Option String :=
  match cache with
  | [] => none
  | e :: rest => if e.1 = p then some e.2 else cacheGet rest p

/-- The Completion Gateway `callLlm(prompt, useCache)` of `src/lib/llm.ts`.
`init` models the module-level `model`/`genAI` being non-null (an API key
was configured); it is a process constant, so both calls of a sequential
pair see the same value. -/
def callLlm (provider : Nat → String → ProviderOutcome) (init : Bool)
    (prompt : String) (useCache : Bool) (st : GwState) :
    LlmCallResult × GwState :=
  let st1 : GwState := { st with gwCalls := st.gwCalls + 1 }
  if ¬ init then
    ({ success := false, text := none,
       error := some "LLM client not initialized. Check API Key." }, st1)
  else if useCache ∧ (cacheGet st1.cache prompt).isSome then
    -- cache hit: short-circuits the provider call entirely
    ({ success := true, text := cacheGet st1.cache prompt, error := none }, st1)
  else
    let outcome := provider st1.providerCalls prompt
    let st2 : GwState := { st1 with providerCalls := st1.providerCalls + 1 }
    match outcome with
    | ProviderOutcome.err m =>
      ({ success := false, text := none, error := some m }, st2)
    | ProviderOutcome.ok t =>
      if t = "" then
        ({ success := false, text := none,
           error := some "LLM Error: Received empty response text." }, st2)
      else
        let st3 : GwState :=
          if useCache then { st2 with cache := (prompt, t) :: st2.cache } else st2
        ({ success := true, text := some t, error := none }, st3)

/-! ### Structured-Response Extractor

`callLlmWithRetry` extracts the fenced block with
`llmResult.text.match(/```yaml\s*([\s\S]*?)\s*```/)`: the capture is the
text between the first ` ```yaml ` marker and the first subsequent
` ``` ` fence, with surrounding whitespace absorbed by the greedy `\s*`s
around the lazy group; a missing fence, or an empty capture
(`!match[1]`), raises "Could not find YAML block". -/

def yamlFenceOpen : List Char := '`' :: '`' :: '`' :: 'y' :: 'a' :: 'm' :: 'l' :: []

def fenceClose : List Char := '`' :: '`' :: '`' :: []

def extractYamlBlock (text : String) : Option String :=
  match findSub yamlFenceOpen text.data with
  | none => none
  | some (_, afterOpen) =>
    match findSub fenceClose afterOpen with
    | none => none
    | some (inner, _) =>
      let captured := trimList inner
      if captured.isEmpty then none else some ⟨captured⟩

/-! ### Retry-Validate Loop (`callLlmWithRetry`, route.ts lines 24-78) -/

/-- Result of `callLlmWithRetry`: `{ success: true, data }` or
`{ success: false, error }`. -/
inductive RetryResult (T : Type) where
  | ok (data : T)
  | fail (error : String)
deriving DecidableEq, Repr

/-- `substring(0, n)` (code points; identical on ASCII text). -/
def strTake (s : String) (n : Nat) : String := ⟨s.data.take n⟩

/-- The `lastError` recorded on a parse failure. -/
def parseFailMsg (errMsg raw : String) : String :=
  "Failed to parse LLM response: " ++ errMsg ++ ". Response:\n" ++
    strTake raw 500 ++ "..."

/-- The `lastError` recorded on a validation failure; `snippet` stands for
`JSON.stringify(parsedData).substring(0,500)`. -/
def validationFailMsg (reason snippet : String) : String :=
  "LLM response validation failed: " ++ reason ++ ". Parsed:\n" ++
    snippet ++ "..."

def noYamlBlockMsg : String := "Could not find YAML block in LLM response."

/-- One run of the `for` loop of `callLlmWithRetry`, with `fuel` remaining
attempts (attempt index `i = maxRetries - fuel`).  The caller-supplied
`validator` returns `true` or an error string in the source and may mutate
the parsed value in place; it is modelled as `T → Except String U` (`U` the post-mutation shape), each
stage's embedded validator encoding exactly the mutations that actually
reach the caller.  `stringify` stands for the ambient `JSON.stringify`
used only to build diagnostic messages.  Backoff waits are timing, not
state, and are not modelled. -/
def retryGo {T U : Type} (provider : Nat → String → ProviderOutcome)
    (init : Bool) (promptGen : Nat → String)
    (parser : String → Except String T) (validator : T → Except String U)
    (stringify : T → String) (maxRetries : Nat) (useCache : Bool) :
    Nat → String → GwState → RetryResult U × GwState
  | 0, lastError, st => (RetryResult.fail lastError, st)
  | fuel + 1, lastError, st =>
    let i := maxRetries - (fuel + 1)
    let prompt := promptGen i
    let r := callLlm provider init prompt useCache st
    let llmResult := r.1
    let st' := r.2
    match llmResult.success, llmResult.text with
    | true, some text =>
      if text = "" then
        -- `!llmResult.text`: the empty string is falsy
        retryGo provider init promptGen parser validator stringify maxRetries
          useCache fuel (jsStrOr llmResult.error "LLM call failed to return text.") st'
      else
        match extractYamlBlock text with
        | none =>
          retryGo provider init promptGen parser validator stringify maxRetries
            useCache fuel (parseFailMsg noYamlBlockMsg text) st'
        | some block =>
          match parser block with
          | Except.error m =>
            retryGo provider init promptGen parser validator stringify maxRetries
              useCache fuel (parseFailMsg m text) st'
          | Except.ok parsedData =>
            match validator parsedData with
            | Except.ok validated => (RetryResult.ok validated, st')
            | Except.error reason =>
              retryGo provider init promptGen parser validator stringify maxRetries
                useCache fuel
                (validationFailMsg reason (strTake (stringify parsedData) 500)) st'
    | _, _ =>
      retryGo provider init promptGen parser validator stringify maxRetries
        useCache fuel (jsStrOr llmResult.error "LLM call failed to return text.") st'

/-- `callLlmWithRetry(promptGenerator, parser, validator, maxRetries, useCache)`. -/
def callLlmWithRetry {T U : Type} (provider : Nat → String → ProviderOutcome)
    (init : Bool) (promptGen : Nat → String)
    (parser : String → Except String T) (validator : T → Except String U)
    (stringify : T → String) (maxRetries : Nat) (useCache : Bool)
    (st : GwState) : RetryResult U × GwState :=
  retryGo provider init promptGen parser validator stringify maxRetries useCache
    maxRetries "Failed after multiple retries." st

example : extractYamlBlock "junk ```yaml\n- 1\n``` tail" = some "- 1" := by decide
example : extractYamlBlock "no fence here" = none := by decide
example : extractYamlBlock "```yaml   \n  ```" = none := by decide
example : jsParseInt "  3 " = some 3 := by decide
example : jsParseInt "-12abc" = some (-12) := by decide
example : jsParseInt "abc" = none := by decide

/-! ### Dynamically-typed index values

Model-produced index fields arrive either as YAML integers or as strings
of the shape `"<int> # <name>"`; the validators canonicalize both.  The
value space inspected by the canonicalization code is modelled as
`Int ⊕ String`. -/

inductive IdxVal where
  | int (n : Int)
  | str (s : String)
deriving DecidableEq, Repr

/-- Template interpolation `${v}` of an index value. -/
def idxValStr (v : IdxVal) : String :=
  match v with
  | IdxVal.int n => intDecimalStr n
  | IdxVal.str s => s

/-- `s.split('#')[0]`. -/
def beforeHash (s : String) : String := ⟨s.data.takeWhile (fun c => c ≠ '#')⟩

/-- Canonicalization used by the abstractions and chapter-order
validators:
`typeof e === 'number' ? e : (typeof e === 'string' && e.includes('#') ?
parseInt(e.split('#')[0].trim(), 10) : parseInt(String(e).trim(), 10))`. -/
def canonIdx (v : IdxVal) : Option Int :=
  match v with
  | IdxVal.int n => some n
  | IdxVal.str s =>
    if s.data.contains '#' then jsParseInt (jsTrim (beforeHash s))
    else jsParseInt (jsTrim s)

/-- Canonicalization used by the relationships validator:
`typeof v === 'number' ? v : parseInt(String(v).split('#')[0].trim(), 10)`
(the split is unconditional there; extensionally the same on strings). -/
def canonRelIdx (v : IdxVal) : Option Int :=
  match v with
  | IdxVal.int n => some n
  | IdxVal.str s => jsParseInt (jsTrim (beforeHash s))

/-- `canonIdx` mapped over a whole sequence (`none` if any entry is NaN). -/
def canonAll : List IdxVal → Option (List Int)
  | [] => some []
  | e :: rest =>
    match canonIdx e, canonAll rest with
    | some i, some l => some (i :: l)
    | _, _ => none

/-- `Set.add`: JS `Set` keeps insertion order and ignores repeats; only
`has` and `size` are consumed, modelled by `∈` and `length` on a
duplicate-free list. -/
def jsSetAdd (s : List Int) (x : Int) : List Int :=
  if x ∈ s then s else s ++ [x]

/-! ### Abstraction Discovery validator (route.ts lines 232-261) -/

/-- A provisional abstraction record as deserialized from YAML.  `none`
on `name`/`description` models a missing or non-string field (both are
rejected; JS truthiness additionally rejects the empty string, which the
embedding checks explicitly).  `file_indices` is the field the prompt
requests; `files` is the fallback the validator also accepts. -/
structure RawAbstraction where
  name : Option String
  description : Option String
  file_indices : Option (List IdxVal)
  files : Option (List IdxVal)
deriving DecidableEq, Repr

/-- A validated abstraction (`Abstraction` of `src/lib/types.ts`; `files`
holds canonicalized file indices). -/
structure Abstraction where
  name : String
  description : String
  files : List Int
deriving DecidableEq, Repr

/-- Stands for `JSON.stringify(item).substring(0,100)` in diagnostic
messages.  The exact JSON rendering is irrelevant to every stated
property and is not modelled precisely. -/
def rawAbstractionSnippet (item : RawAbstraction) : String :=
  "name: " ++ jsStrOr item.name "undefined"

/-- `item.file_indices || item.files` (an empty array is truthy). -/
def effFileIndices (item : RawAbstraction) : Option (List IdxVal) :=
  match item.file_indices with
  | some l => some l
  | none => item.files

/-- The inner loop over one record's `fileIndices`: canonicalize each
entry, rejecting NaN and out-of-range values. -/
def absIndicesLoop (fileCount : Nat) (itemName : String) :
    List IdxVal → Except String (List Int)
  | [] => Except.ok []
  | e :: rest =>
    let bad : Except String (List Int) :=
      Except.error ("Invalid file index " ++ idxValStr e ++ " in item " ++
        itemName ++ ". Max index is " ++ intDecimalStr ((fileCount : Int) - 1) ++ ".")
    match canonIdx e with
    | none => bad
    | some idx =>
      if idx < 0 ∨ (fileCount : Int) ≤ idx then bad
      else
        match absIndicesLoop fileCount itemName rest with
        | Except.ok tail => Except.ok (idx :: tail)
        | Except.error m => Except.error m

/-- `[...new Set(indices)].sort((a, b) => a - b)`: the distinct values in
ascending order.  `List.dedup`/`insertionSort` produce the same list as
the JS dedup-then-sort since a strictly sorted list is determined by its
set of elements. -/
def dedupSort (l : List Int) : List Int :=
  (l.dedup).insertionSort (· ≤ ·)

/-- The abstractions validator (the `validator` closure passed to
`callLlmWithRetry` for stage 2 of `POST`).  On success each item's
`files` field has been overwritten with the deduplicated ascending
canonical indices — the in-place mutation that reaches the caller. -/
def abstractionsValidator (fileCount : Nat) :
    List RawAbstraction → Except String (List Abstraction)
  | [] => Except.ok []
  | item :: rest =>
    match item.name, item.description with
    | some nm, some descr =>
      if nm = "" ∨ descr = "" then
        -- JS truthiness: `!item.name || !item.description`
        Except.error ("Invalid item structure: " ++ rawAbstractionSnippet item)
      else
        match effFileIndices item with
        | none =>
          Except.error ("Missing or invalid file indices in item: " ++ nm)
        | some fileIndices =>
          match absIndicesLoop fileCount nm fileIndices with
          | Except.error m => Except.error m
          | Except.ok indices =>
            match abstractionsValidator fileCount rest with
            | Except.error m => Except.error m
            | Except.ok tail =>
              Except.ok ({ name := nm, description := descr,
                           files := dedupSort indices } :: tail)
    | _, _ => Except.error ("Invalid item structure: " ++ rawAbstractionSnippet item)

/-! ### Relationship Inference validator (route.ts lines 300-354) -/

/-- A provisional relationship edge: the model may send
`from_abstraction`/`to_abstraction` (as in the prompt) or direct
`from`/`to` fields; `frm`/`toF` model the latter (`from` is a Lean
keyword).  `none` on `label` models a missing or non-string label. -/
structure RawRel where
  from_abstraction : Option IdxVal
  to_abstraction : Option IdxVal
  frm : Option IdxVal
  toF : Option IdxVal
  label : Option String
deriving DecidableEq, Repr

/-- A canonical edge (`Relationship` of `src/lib/types.ts`). -/
structure Relationship where
  frm : Int
  toIdx : Int
  label : String
deriving DecidableEq, Repr

/-- `RelationshipData` after validation: `summary`, the canonical
`details` edge list and the `relationships` alias field the validator
also sets. -/
structure RelationshipData where
  summary : String
  details : List Relationship
  relationships : Option (List Relationship)
deriving DecidableEq, Repr

/-- The raw parsed value: `summary` (`none` = absent or non-string) and
the two possible edge-array fields. -/
structure RawRelationshipData where
  summary : Option String
  relationships : Option (List RawRel)
  details : Option (List RawRel)
deriving DecidableEq, Repr

/-- Stands for `JSON.stringify(rel).substring(0,100)`; exact rendering
irrelevant to every stated property. -/
def rawRelSnippet (rel : RawRel) : String :=
  "label: " ++ jsStrOr rel.label "undefined"

/-- `rel.from_abstraction !== undefined ? rel.from_abstraction : rel.from`. -/
def relFromField (rel : RawRel) : Option IdxVal :=
  match rel.from_abstraction with
  | some v => some v
  | none => rel.frm

/-- `rel.to_abstraction !== undefined ? rel.to_abstraction : rel.to`. -/
def relToField (rel : RawRel) : Option IdxVal :=
  match rel.to_abstraction with
  | some v => some v
  | none => rel.toF

/-- The loop over the relationship array: canonicalize each edge's
endpoints, reject missing properties, NaN and out-of-range indices, and
accumulate the `mentionedIndices` set.  Returns the canonical edges and
the final mentioned set. -/
def relEdgesLoop (m : Nat) :
    List RawRel → List Int → Except String (List Relationship × List Int)
  | [], mentioned => Except.ok ([], mentioned)
  | rel :: rest, mentioned =>
    match relFromField rel, relToField rel, rel.label with
    | some fv, some tv, some lab =>
      let bad : Except String (List Relationship × List Int) :=
        Except.error ("Invalid index in relationship: from=" ++ idxValStr fv ++
          ", to=" ++ idxValStr tv)
      match canonRelIdx fv, canonRelIdx tv with
      | some fi, some ti =>
        if fi < 0 ∨ (m : Int) ≤ fi ∨ ti < 0 ∨ (m : Int) ≤ ti then bad
        else
          match relEdgesLoop m rest (jsSetAdd (jsSetAdd mentioned fi) ti) with
          | Except.ok (tail, mentioned') =>
            Except.ok ({ frm := fi, toIdx := ti, label := lab } :: tail, mentioned')
          | Except.error e => Except.error e
      | _, _ => bad
    | _, _, _ =>
      Except.error ("Missing relationship properties in: " ++ rawRelSnippet rel)

/-- `parsed.details || parsed.relationships` guarded by the earlier
`!parsed.relationships && !parsed.details` rejection. -/
def effectiveRelArray (parsed : RawRelationshipData) : Option (List RawRel) :=
  match parsed.relationships, parsed.details with
  | none, none => none
  | _, _ =>
    some (match parsed.details with
          | some d => d
          | none => parsed.relationships.getD [])

/-- The coverage-failure reason, listing the missing abstraction indices. -/
def missingCoverageMsg (m : Nat) (mentioned : List Int) : String :=
  "Validation Error: Not all abstractions are included in relationships. Missing: " ++
    joinSep ", " (((List.range m).filter
      (fun i => ¬ (Int.ofNat i) ∈ mentioned)).map natDecimalStr) ++
    ". Please ensure every abstraction index appears at least once."

/-- The relationships validator (stage 3 of `POST`).  On success the
returned value carries the mutations performed in place by the source:
canonical `from`/`to` on every edge and the `details`/`relationships`
alias fields both set to the edge array. -/
def relationshipsValidator (m : Nat) (parsed : RawRelationshipData) :
    Except String RelationshipData :=
  match parsed.summary with
  | none => Except.error "Invalid structure: Expected summary (string)"
  | some summ =>
    match effectiveRelArray parsed with
    | none => Except.error "Invalid structure: Expected relationships or details array"
    | some relArray =>
      match relEdgesLoop m relArray [] with
      | Except.error e => Except.error e
      | Except.ok (canonical, mentioned) =>
        if mentioned.length ≠ m then
          Except.error (missingCoverageMsg m mentioned)
        else
          Except.ok { summary := summ, details := canonical,
                      relationships := some canonical }

/-! ### Chapter Ordering validator (route.ts lines 384-406) -/

/-- The loop over the ordered-list entries: canonicalize, reject NaN /
out-of-range / duplicates, accumulating `orderedIndices` and the
`seenIndices` set. -/
def orderEntriesLoop (m : Nat) :
    List IdxVal → List Int → List Int → Except String (List Int × List Int)
  | [], seen, ordered => Except.ok (ordered, seen)
  | entry :: rest, seen, ordered =>
    let bad : Except String (List Int × List Int) :=
      Except.error ("Invalid index " ++ idxValStr entry ++
        " in ordered list. Max index is " ++
        intDecimalStr ((m : Int) - 1) ++ ".")
    match canonIdx entry with
    | none => bad
    | some idx =>
      if idx < 0 ∨ (m : Int) ≤ idx then bad
      else if idx ∈ seen then
        Except.error ("Duplicate index " ++ intDecimalStr idx ++
          " found in ordered list.")
      else orderEntriesLoop m rest (jsSetAdd seen idx) (ordered ++ [idx])

/-- The length-mismatch reason (`join(',')` — no space — in the source). -/
def orderLengthMsg (m : Nat) (ordered seen : List Int) : String :=
  "Ordered list length (" ++ natDecimalStr ordered.length ++
    ") doesn't match abstraction count (" ++ natDecimalStr m ++ "). Missing: " ++
    joinSep "," (((List.range m).filter
      (fun i => ¬ (Int.ofNat i) ∈ seen)).map natDecimalStr)

/-- The chapter-order validator (stage 4 of `POST`).  The canonicalized
`orderedIndices` are used only for validation — the accepted data is the
original raw list, re-canonicalized by the caller afterwards. -/
def chapterOrderValidator (m : Nat) (parsed : List IdxVal) :
    Except String (List IdxVal) :=
  match orderEntriesLoop m parsed [] [] with
  | Except.error e => Except.error e
  | Except.ok (ordered, seen) =>
    if ordered.length ≠ m then Except.error (orderLengthMsg m ordered seen)
    else Except.ok parsed

/-! ### Sequential Chapter Authoring validator (route.ts lines 470-479)

The heading check is
`new RegExp(`^#\s*Chapter\s+NUM[\s:]*NAME`, 'i')` applied to
`parsed.trim()`, where `NUM` is the chapter ordinal's decimal digits and
`NAME` is the chapter name with regex metacharacters escaped (so matched
literally, case-insensitively).  `[\s:]*` is matched with backtracking:
the name may begin right after the digits or after any run of
whitespace/colons. -/

/-- Matches `[\s:]*NAME` (with backtracking) at the head of `s`. -/
def matchSpColonThenName (name : List Char) : List Char → Bool
  | [] => (stripCI name []).isSome
  | c :: cs =>
    if (stripCI name (c :: cs)).isSome then true
    else if isSpaceJs c || c = ':' then matchSpColonThenName name cs
    else false

/-- Whether `s` (already trimmed by the caller) matches the chapter
heading regex anchored at the start. -/
def headingMatches (num : Nat) (name : String) (s : String) : Bool :=
  match s.data with
  | '#' :: rest =>
    let rest := rest.dropWhile isSpaceJs          -- \s*
    match stripCI ('c' :: 'h' :: 'a' :: 'p' :: 't' :: 'e' :: 'r' :: []) rest with
    | none => false
    | some rest =>
      match rest with
      | c :: cs =>
        if isSpaceJs c then                        -- \s+ (at least one)
          let rest := cs.dropWhile isSpaceJs
          match rest.dropPrefix? (natDecimal num) with  -- the ordinal's digits
          | none => false
          | some rest => matchSpColonThenName name.data rest
        else false
      | [] => false
  | _ => false

/-- The expected heading `# Chapter <num>: <name>`. -/
def expectedHeading (num : Nat) (name : String) : String :=
  "# Chapter " ++ natDecimalStr num ++ ": " ++ name

/-- The repaired body the source builds in its local variable:
`` `# Chapter ${num}: ${name}\n\n${parsed.trim()}` ``. -/
def repairedChapterBody (num : Nat) (name : String) (parsed : String) : String :=
  expectedHeading num name ++ "\n\n" ++ jsTrim parsed

/-- The chapter validator (stage 5 of `POST`).  When the heading is
missing, the source reassigns its local parameter
(`parsed = \`# Chapter ...\``) — a rebinding of a local string that never
reaches `callLlmWithRetry`, whose `parsedData` is unchanged; so in both
branches the data the caller receives is the original `parsed`. -/
def chapterValidator (num : Nat) (name : String) (parsed : String) :
    Except String String :=
  if parsed.length < 10 then
    Except.error "Chapter content seems too short or invalid."
  else if headingMatches num name (jsTrim parsed) then Except.ok parsed
  else
    -- heading repair intended here; the repaired string stays local
    Except.ok parsed

/-! ### Filename derivation (route.ts lines 432-443, utils.ts lines 7-14) -/

/-- `[^a-zA-Z0-9_.-]` complement: the characters `sanitizeFilename` keeps. -/
def keepChar (c : Char) : Bool :=
  c.isAlpha || c.isDigit || c = '_' || c = '.' || c = '-'

/-- The class `[_.-]` stripped from the ends by `sanitizeFilename`. -/
def edgeStrip (c : Char) : Bool := c = '_' || c = '.' || c = '-'

/-- Collapse each run of two or more underscores to a single one
(the `/__+/g → '_'` replacement). -/
def collapseUnderscores : List Char → List Char
  | [] => []
  | [c] => [c]
  | c₁ :: c₂ :: rest =>
    if c₁ = '_' ∧ c₂ = '_' then collapseUnderscores (c₂ :: rest)
    else c₁ :: collapseUnderscores (c₂ :: rest)

/-- `sanitizeFilename` of `src/lib/utils.ts`. -/
def sanitizeFilename (name : String) : String :=
  if name = "" then "untitled"
  else
    let step1 := name.data.map (fun c => if keepChar c then c else '_')
    let step2 := ((step1.dropWhile edgeStrip).reverse.dropWhile edgeStrip).reverse
    ⟨collapseUnderscores step2⟩

/-- `String(num).padStart(2, '0')`. -/
def pad2 (n : Nat) : List Char :=
  let d := natDecimal n
  if d.length < 2 then List.replicate (2 - d.length) '0' ++ d else d

/-- `` `${String(chapterNum).padStart(2, '0')}_${safeName}.md` `` with
`safeName = sanitizeFilename(chapterName) || \`chapter_${chapterNum}\``. -/
def chapterFilename (num : Nat) (name : String) : String :=
  ⟨pad2 num ++ '_' ::
    ((jsStrOrStr (sanitizeFilename name) ("chapter_" ++ natDecimalStr num)).data ++
      ('.' :: 'm' :: 'd' :: []))⟩

/-- `ChapterInfo` of `src/lib/types.ts`. -/
structure ChapterInfo where
  index : Int
  num : Nat
  name : String
  filename : String
deriving DecidableEq, Repr

/-- The first pass over `chapterOrder` (route.ts lines 432-443): chapter
numbers follow the `forEach` position (starting at `i = start`), invalid
abstraction indices are skipped with a warning. -/
def deriveChapterInfosGo (abstractions : List Abstraction) :
    Nat → List Int → List ChapterInfo
  | _, [] => []
  | i, absIndex :: rest =>
    if 0 ≤ absIndex ∧ absIndex < (abstractions.length : Int) then
      let chapterNum := i + 1
      let chapterName :=
        (abstractions.getD absIndex.toNat ⟨"", "", []⟩).name
      { index := absIndex, num := chapterNum, name := chapterName,
        filename := chapterFilename chapterNum chapterName } ::
        deriveChapterInfosGo abstractions (i + 1) rest
    else deriveChapterInfosGo abstractions (i + 1) rest

/-- Filename derivation for the whole chapter order, performed before any
chapter body is authored. -/
def deriveChapterInfos (abstractions : List Abstraction)
    (chapterOrder : List Int) : List ChapterInfo :=
  deriveChapterInfosGo abstractions 0 chapterOrder

/-! ### Graph repair utility (`ensureAllAbstractionsInRelationships`,
lib/utils.ts in `src/unnamed/part_001`, lines 283-327) -/

/-- The set of abstraction indices mentioned as `from` or `to` by any
edge (insertion-ordered, duplicate-free, as built by the source's
`Set`). -/
def mentionedOf (details : List Relationship) : List Int :=
  details.foldl (fun s rel => jsSetAdd (jsSetAdd s rel.frm) rel.toIdx) []

/-- The missing-index list the repair utility computes:
`abstractions.map((_, i) => i).filter(i => !mentionedIndices.has(i))`. -/
def missingIdxs (details : List Relationship) (m : Nat) : List Nat :=
  (List.range m).filter (fun i => ¬ (Int.ofNat i) ∈ mentionedOf details)

/-- `ensureAllAbstractionsInRelationships(relationships, abstractions)`.
Only the length of `abstractions` is consulted, so the embedding takes
the count directly. -/
def ensureAllAbstractionsInRelationships (relationships : RelationshipData)
    (abstractionCount : Nat) : RelationshipData :=
  let missing := missingIdxs relationships.details abstractionCount
  if missing.isEmpty then relationships
  else
    let newRels := missing.map
      (fun missingIndex => ({ frm := 0, toIdx := Int.ofNat missingIndex,
                              label := "Related to" } : Relationship))
    { summary := relationships.summary,
      details := relationships.details ++ newRels,
      relationships :=
        some ((relationships.relationships.getD relationships.details) ++ newRels) }

/-! ### Pipeline driver (`POST`, route.ts lines 224-498)

Prompt construction (`src/lib/prompts.ts`) is pure string templating
whose content reaches the run only through the provider oracle, so the
prompts enter the driver as opaque function parameters, as do the YAML
deserializers (`YAML.parse` casts — the external `yaml` package) and the
`JSON.stringify` renderings used in diagnostics. -/

/-- The fixed attribution footer appended to every chapter. -/
def attributionText : String :=
  "---\n\nGenerated by [AI Codebase Knowledge Builder](https://github.com/The-Pocket/Tutorial-Codebase-Knowledge)"

/-- `s.endsWith('\n\n')`. -/
def endsWithTwoNewlines (s : String) : Bool :=
  match s.data.reverse with
  | '\n' :: '\n' :: _ => true
  | _ => false

/-- The body with the attribution footer appended
(route.ts lines 490-493). -/
def withAttribution (body : String) : String :=
  (if endsWithTwoNewlines body then body else body ++ "\n\n") ++ attributionText

/-- The sequential chapter-writing loop (route.ts lines 447-497): one
retry-validated gateway call per chapter, threading the cumulative
previous-chapters context, aborting the whole run on the first exhausted
chapter. -/
def writeChaptersLoop (provider : Nat → String → ProviderOutcome) (init : Bool)
    (chPrompt : Nat → String → String → String) :
    List ChapterInfo → String → GwState → Except String (List String) × GwState
  | [], _, st => (Except.ok [], st)
  | info :: rest, prevSummary, st =>
    let r := callLlmWithRetry provider init
      (fun _ => chPrompt info.num info.name prevSummary)
      (fun t => Except.ok t)                 -- `(text) => text`: raw Markdown
      (chapterValidator info.num info.name)
      (fun s => s) 3 false st                -- maxRetries 3, useCache false
    match r.1 with
    | RetryResult.fail e =>
      (Except.error ("Failed to write chapter " ++ natDecimalStr info.num ++
        " (" ++ info.name ++ "): " ++ e), r.2)
    | RetryResult.ok body =>
      let finalContent := withAttribution body
      match writeChaptersLoop provider init chPrompt rest
        (prevSummary ++ "\n\n---\n\n" ++ finalContent) r.2 with
      | (Except.ok tail, st') => (Except.ok (finalContent :: tail), st')
      | (Except.error e, st') => (Except.error e, st')

/-- The complete document set handed to packaging on success: the chapter
infos (whose filenames name the archive entries) and the chapter bodies,
one per info. -/
structure PipelineDocs where
  chapterInfos : List ChapterInfo
  chapterBodies : List String
deriving DecidableEq, Repr

/-- The four-stage pipeline driver inside `POST`: Discovery → Inference →
Ordering → Authoring, each routed through `callLlmWithRetry`; any stage's
failure aborts the run with a message naming the stage and carrying the
loop's last recorded error.  The `chapterOrder` re-canonicalization is
route.ts lines 413-417; an unparsable entry yields `NaN` there, which
fails the `absIndex >= 0` guard of the first pass exactly as the model
value `-1` does. -/
def runPipeline (provider : Nat → String → ProviderOutcome) (init : Bool)
    (fileCount : Nat) (absPrompt : String)
    (relPrompt : List Abstraction → String)
    (orderPrompt : RelationshipData → String)
    (chPrompt : Nat → String → String → String)
    (yamlAbs : String → Except String (List RawAbstraction))
    (yamlRel : String → Except String RawRelationshipData)
    (yamlOrder : String → Except String (List IdxVal))
    (strAbs : List RawAbstraction → String)
    (strRel : RawRelationshipData → String)
    (strOrder : List IdxVal → String)
    (st : GwState) : Except String PipelineDocs × GwState :=
  let rAbs := callLlmWithRetry provider init (fun _ => absPrompt) yamlAbs
    (abstractionsValidator fileCount) strAbs 3 true st
  match rAbs.1 with
  | RetryResult.fail e =>
    (Except.error ("Failed to identify abstractions: " ++ e), rAbs.2)
  | RetryResult.ok abstractions =>
    let rRel := callLlmWithRetry provider init
      (fun _ => relPrompt abstractions) yamlRel
      (relationshipsValidator abstractions.length) strRel 3 true rAbs.2
    match rRel.1 with
    | RetryResult.fail e =>
      (Except.error ("Failed to analyze relationships: " ++ e), rRel.2)
    | RetryResult.ok relationships =>
      let rOrd := callLlmWithRetry provider init
        (fun _ => orderPrompt relationships) yamlOrder
        (chapterOrderValidator abstractions.length) strOrder 3 true rRel.2
      match rOrd.1 with
      | RetryResult.fail e =>
        (Except.error ("Failed to order chapters: " ++ e), rOrd.2)
      | RetryResult.ok orderedRaw =>
        let chapterOrder := orderedRaw.map (fun entry => (canonIdx entry).getD (-1))
        let infos := deriveChapterInfos abstractions chapterOrder
        match writeChaptersLoop provider init chPrompt infos "" rOrd.2 with
        | (Except.error e, st') => (Except.error e, st')
        | (Except.ok bodies, st') =>
          (Except.ok { chapterInfos := infos, chapterBodies := bodies }, st')

example :
    headingMatches 2 "Caching Layer" "# Chapter 2: Caching Layer\n\nBody" = true := by
  decide
example :
    headingMatches 2 "Caching Layer" "#chapter  2 Caching layer rest" = true := by
  decide
example : headingMatches 2 "Caching Layer" "Intro\n# Chapter 2: Caching Layer" = false := by
  decide
example : headingMatches 2 "Caching Layer" "# Chapter 3: Caching Layer" = false := by
  decide
example : sanitizeFilename "Blockly.Msg Message System" = "Blockly.Msg_Message_System" := by
  decide
example : sanitizeFilename "__a///b__" = "a_b" := by decide
example : chapterFilename 3 "Cache!" = "03_Cache.md" := by decide
example :
    chapterOrderValidator 2 (IdxVal.int 1 :: IdxVal.int 0 :: []) =
      Except.ok (IdxVal.int 1 :: IdxVal.int 0 :: []) := rfl
example :
    chapterOrderValidator 2 (IdxVal.int 0 :: IdxVal.int 0 :: []) =
      Except.error "Duplicate index 0 found in ordered list." := rfl

/-! ### Claim C1 — chapter heading acceptance and repair -/

/-- A chapter body of non-trivial length that does not begin with the
expected heading. -/
def c1RawBody : String := "This chapter text comes without any heading at all."

/-- **C1**: the claim states that a raw body beginning with a correct
heading is accepted unchanged, and that a body missing the heading is
still accepted *with the expected heading prepended*.  The second half
fails on the code: the validator's repair rebinds a local string
parameter, so the accepted body is the raw body unchanged even when the
heading check fails.  This theorem evaluates the code at such a failing
input: the validator (and the whole retry loop around it, exactly as the
Authoring Stage invokes it) accepts the heading-less body verbatim, which
does not begin with the expected heading and differs from the repaired
body the source constructs locally. -/
theorem claim_C1_heading_repair_is_lost :
    chapterValidator 2 "Caching Layer" c1RawBody = Except.ok c1RawBody ∧
    headingMatches 2 "Caching Layer" (jsTrim c1RawBody) = false ∧
    (callLlmWithRetry
        (fun _ _ => ProviderOutcome.ok ("```yaml\n" ++ c1RawBody ++ "\n```"))
        true (fun _ => "chapter prompt") (fun t => Except.ok t)
        (chapterValidator 2 "Caching Layer") (fun s => s) 3 false
        ⟨[], 0, 0⟩).1 = RetryResult.ok c1RawBody ∧
    List.isPrefixOf (expectedHeading 2 "Caching Layer").data c1RawBody.data = false ∧
    repairedChapterBody 2 "Caching Layer" c1RawBody ≠ c1RawBody := by
  exact ⟨rfl, by decide, rfl, by decide, by decide⟩

/-! ### Membership lemmas for the `Set` model -/

theorem mem_jsSetAdd {s : List Int} {x y : Int} :
    x ∈ jsSetAdd s y ↔ x ∈ s ∨ x = y := by
  unfold jsSetAdd
  split <;> rename_i h
  · constructor
    · exact fun hx => Or.inl hx
    · rintro (hx | rfl)
      · exact hx
      · exact h
  · simp [List.mem_append]

theorem jsSetAdd_nodup {s : List Int} {y : Int} (h : s.Nodup) :
    (jsSetAdd s y).Nodup := by
  unfold jsSetAdd
  split <;> rename_i hy
  · exact h
  · simpa [List.nodup_append] using ⟨h, fun hmem => hy hmem⟩

theorem mem_of_mem_jsSetAdd_base {s : List Int} {x y : Int} (h : x ∈ s) :
    x ∈ jsSetAdd s y := mem_jsSetAdd.mpr (Or.inl h)

theorem mem_jsSetAdd_self {s : List Int} {y : Int} : y ∈ jsSetAdd s y :=
  mem_jsSetAdd.mpr (Or.inr rfl)

theorem mem_mentionedOf_foldl :
    ∀ (l : List Relationship) (s : List Int) (x : Int),
      (x ∈ l.foldl (fun s rel => jsSetAdd (jsSetAdd s rel.frm) rel.toIdx) s ↔
        x ∈ s ∨ ∃ rel ∈ l, rel.frm = x ∨ rel.toIdx = x) := by
  intro l
  induction l with
  | nil => intro s x; simp
  | cons rel rest ih =>
    intro s x
    simp only [List.foldl_cons, ih, mem_jsSetAdd, List.mem_cons]
    constructor
    · rintro (((hx | rfl) | rfl) | ⟨r, hr, hor⟩)
      · exact Or.inl hx
      · exact Or.inr ⟨rel, Or.inl rfl, Or.inl rfl⟩
      · exact Or.inr ⟨rel, Or.inl rfl, Or.inr rfl⟩
      · exact Or.inr ⟨r, Or.inr hr, hor⟩
    · rintro (hx | ⟨r, (rfl | hr), hor⟩)
      · exact Or.inl (Or.inl (Or.inl hx))
      · rcases hor with h1 | h2
        · exact Or.inl (Or.inl (Or.inr h1.symm))
        · exact Or.inl (Or.inr h2.symm)
      · exact Or.inr ⟨r, hr, hor⟩

/-- An index is in the mentioned set exactly when some edge touches it. -/
theorem mem_mentionedOf {details : List Relationship} {x : Int} :
    x ∈ mentionedOf details ↔ ∃ rel ∈ details, rel.frm = x ∨ rel.toIdx = x := by
  unfold mentionedOf
  simpa using (mem_mentionedOf_foldl details [] x)

/-! ### Claim C7 — the graph repair utility -/

theorem ensureAll_eq_of_empty {r : RelationshipData} {m : Nat}
    (h : (missingIdxs r.details m).isEmpty = true) :
    ensureAllAbstractionsInRelationships r m = r := by
  simp only [ensureAllAbstractionsInRelationships]
  rw [if_pos h]

theorem ensureAll_details_of_ne {r : RelationshipData} {m : Nat}
    (h : ¬ (missingIdxs r.details m).isEmpty = true) :
    (ensureAllAbstractionsInRelationships r m).details =
      r.details ++ (missingIdxs r.details m).map
        (fun missingIndex => ({ frm := 0, toIdx := Int.ofNat missingIndex,
                                label := "Related to" } : Relationship)) := by
  simp only [ensureAllAbstractionsInRelationships]
  rw [if_neg h]

theorem mem_missingIdxs {details : List Relationship} {m i : Nat} :
    i ∈ missingIdxs details m ↔ i < m ∧ ¬ (Int.ofNat i) ∈ mentionedOf details := by
  simp [missingIdxs, List.mem_filter, List.mem_range]

/-- **C7**: `ensureAllAbstractionsInRelationships(r, a)` returns `r`
unchanged when every abstraction index `0..|a|-1` already appears as the
`from` or `to` of some edge; otherwise it returns `r` extended with, for
each missing index, exactly one synthesized edge from abstraction 0 to it
labelled "Related to"; and in all cases the returned graph covers every
index in `{0..|a|-1}`. -/
theorem claim_C7_ensure_all_abstractions :
    ∀ (r : RelationshipData) (m : Nat),
      ((∀ i : Nat, i < m → (Int.ofNat i) ∈ mentionedOf r.details) →
        ensureAllAbstractionsInRelationships r m = r) ∧
      (¬ (missingIdxs r.details m).isEmpty = true →
        (ensureAllAbstractionsInRelationships r m).details =
          r.details ++ (missingIdxs r.details m).map
            (fun missingIndex =>
              ({ frm := 0, toIdx := Int.ofNat missingIndex,
                 label := "Related to" } : Relationship))) ∧
      (∀ i : Nat, i < m →
        (Int.ofNat i) ∈
          mentionedOf (ensureAllAbstractionsInRelationships r m).details) := by
  intro r m
  refine ⟨?_, ensureAll_details_of_ne, ?_⟩
  · intro hcov
    refine ensureAll_eq_of_empty ?_
    rw [List.isEmpty_iff]
    rw [missingIdxs, List.filter_eq_nil_iff]
    intro i hi
    simp only [decide_eq_true_eq, Decidable.not_not]
    exact hcov i (List.mem_range.mp hi)
  · intro i hi
    by_cases hempty : (missingIdxs r.details m).isEmpty = true
    · rw [ensureAll_eq_of_empty hempty]
      by_contra hmem
      have hmm : i ∈ missingIdxs r.details m := mem_missingIdxs.mpr ⟨hi, hmem⟩
      rw [List.isEmpty_iff] at hempty
      rw [hempty] at hmm
      exact absurd hmm (List.not_mem_nil i)
    · rw [show (Int.ofNat i) ∈
          mentionedOf (ensureAllAbstractionsInRelationships r m).details ↔ _ from
          mem_mentionedOf]
      rw [ensureAll_details_of_ne hempty]
      by_cases hmem : (Int.ofNat i) ∈ mentionedOf r.details
      · rcases mem_mentionedOf.mp hmem with ⟨rel, hrel, hor⟩
        exact ⟨rel, List.mem_append_left _ hrel, hor⟩
      · refine ⟨{ frm := 0, toIdx := Int.ofNat i, label := "Related to" }, ?_, Or.inr rfl⟩
        exact List.mem_append_right _
          (List.mem_map.mpr ⟨i, mem_missingIdxs.mpr ⟨hi, hmem⟩, rfl⟩)

/-- Witness for C7 at a concrete graph: two abstractions, a single edge
`0 → 0`; index 1 is missing, so one generic edge `0 → 1` is synthesized
and coverage holds afterwards. -/
theorem claim_C7_witness :
    (ensureAllAbstractionsInRelationships
        ⟨"s", [⟨0, 0, "self"⟩], none⟩ 2).details =
      [⟨0, 0, "self"⟩] ++ (missingIdxs [⟨0, 0, "self"⟩] 2).map
        (fun missingIndex => ({ frm := 0, toIdx := Int.ofNat missingIndex,
                                label := "Related to" } : Relationship)) ∧
    (Int.ofNat 1) ∈ mentionedOf
      (ensureAllAbstractionsInRelationships ⟨"s", [⟨0, 0, "self"⟩], none⟩ 2).details := by
  have h := claim_C7_ensure_all_abstractions ⟨"s", [⟨0, 0, "self"⟩], none⟩ 2
  exact ⟨h.2.1 (by decide), h.2.2 1 (by decide)⟩

/-! ### Claim C5 — cache determinism of the Completion Gateway -/

/-- **C5**: if a `callLlm(p, useCache=true)` call succeeds, a second
sequential call with the same prompt and `useCache=true` issues no
provider request (the provider-call counter and the cache are unchanged,
and the second call's provider oracle is universally quantified, so its
behaviour cannot matter) and returns success with the same response
text. -/
theorem claim_C5_cache_determinism :
    ∀ (provider provider' : Nat → String → ProviderOutcome) (init : Bool)
      (p : String) (st st1 : GwState) (r1 : LlmCallResult),
      callLlm provider init p true st = (r1, st1) →
      r1.success = true →
      ∃ t, r1.text = some t ∧
        callLlm provider' init p true st1 =
          ({ success := true, text := some t, error := none },
           { st1 with gwCalls := st1.gwCalls + 1 }) := by
  intro provider provider' init p st st1 r1 hcall hsucc
  obtain ⟨cache, pc, gc⟩ := st
  by_cases hinit : init
  · by_cases hhit : (cacheGet cache p).isSome
    · obtain ⟨t, ht⟩ := Option.isSome_iff_exists.mp hhit
      simp only [callLlm, hinit, not_true, if_false, ht, Option.isSome_some,
        and_true, if_true, true_and] at hcall
      rw [Prod.mk.injEq] at hcall
      obtain ⟨h1, h2⟩ := hcall
      subst h1; subst h2
      refine ⟨t, rfl, ?_⟩
      simp only [callLlm, hinit, not_true, if_false, ht, Option.isSome_some,
        and_true, if_true, true_and]
    · rcases houtcome : provider pc p with t | mer
      · by_cases ht0 : t = ""
        · subst ht0
          simp only [callLlm, hinit, not_true, if_false, hhit, and_false,
            houtcome, if_true] at hcall
          rw [Prod.mk.injEq] at hcall
          obtain ⟨h1, _⟩ := hcall
          rw [← h1] at hsucc
          simp at hsucc
        · simp only [callLlm, hinit, not_true, if_false, hhit, and_false,
            houtcome, ht0, if_false, if_true] at hcall
          rw [Prod.mk.injEq] at hcall
          obtain ⟨h1, h2⟩ := hcall
          subst h1; subst h2
          refine ⟨t, rfl, ?_⟩
          simp only [callLlm, hinit, not_true, if_false, cacheGet, if_pos rfl,
            Option.isSome_some, and_true, if_true]
      · simp only [callLlm, hinit, not_true, if_false, hhit, and_false,
          houtcome, if_true] at hcall
        rw [Prod.mk.injEq] at hcall
        obtain ⟨h1, _⟩ := hcall
        rw [← h1] at hsucc
        simp at hsucc
  · simp only [callLlm, hinit, not_false_iff, if_true] at hcall
    rw [Prod.mk.injEq] at hcall
    obtain ⟨h1, _⟩ := hcall
    rw [← h1] at hsucc
    simp at hsucc

/-- Witness for C5: empty initial cache, a provider that answers `"pong"`
to the first request; the first call succeeds, and the second call reads
`"pong"` from the cache without a provider request. -/
theorem claim_C5_witness :
    ∃ t,
      ({ success := true, text := some "pong", error := none } : LlmCallResult).text =
        some t ∧
      callLlm (fun _ _ => ProviderOutcome.err "down") true "ping" true
          ⟨[("ping", "pong")], 1, 1⟩ =
        ({ success := true, text := some t, error := none },
         { cache := [("ping", "pong")], providerCalls := 1, gwCalls := 2 }) :=
  claim_C5_cache_determinism (fun _ _ => ProviderOutcome.ok "pong")
    (fun _ _ => ProviderOutcome.err "down") true "ping" ⟨[], 0, 0⟩
    ⟨[("ping", "pong")], 1, 1⟩ { success := true, text := some "pong", error := none }
    (by decide) (by decide)

/-! ### Decimal-representation lemmas (for filename uniqueness) -/

theorem natDecimalAux_fuel :
    ∀ (n f₁ f₂ : Nat), n < f₁ → n < f₂ →
      natDecimalAux f₁ n = natDecimalAux f₂ n := by
  intro n
  induction n using Nat.strong_induction_on with
  | _ n ih =>
    intro f₁ f₂ h₁ h₂
    match f₁, h₁ with
    | g₁ + 1, h₁ =>
      match f₂, h₂ with
      | g₂ + 1, h₂ =>
        by_cases hn : n < 10
        · simp [natDecimalAux, hn]
        · have hdiv : n / 10 < n := Nat.div_lt_self (by omega) (by omega)
          have hg₁ : n / 10 < g₁ := by omega
          have hg₂ : n / 10 < g₂ := by omega
          simp only [natDecimalAux, hn, if_false]
          rw [ih (n / 10) hdiv g₁ g₂ hg₁ hg₂]

theorem natDecimal_lt10 {n : Nat} (h : n < 10) :
    natDecimal n = [digitChar10 n] := by
  simp [natDecimal, natDecimalAux, h]

theorem natDecimal_ge10 {n : Nat} (h : 10 ≤ n) :
    natDecimal n = natDecimal (n / 10) ++ [digitChar10 (n % 10)] := by
  have hdiv : n / 10 < n := Nat.div_lt_self (by omega) (by omega)
  rw [natDecimal, natDecimal]
  rw [show natDecimalAux (n + 1) n =
    natDecimalAux n (n / 10) ++ [digitChar10 (n % 10)] by
      simp [natDecimalAux, Nat.not_lt.mpr h]]
  rw [natDecimalAux_fuel (n / 10) n (n / 10 + 1) (by omega) (by omega)]

theorem digitChar10_toNat {n : Nat} (h : n < 10) :
    (digitChar10 n).toNat = 48 + n := by
  interval_cases n <;> decide

theorem digitChar10_inj {a b : Nat} (ha : a < 10) (hb : b < 10)
    (h : digitChar10 a = digitChar10 b) : a = b := by
  have := congrArg Char.toNat h
  rw [digitChar10_toNat ha, digitChar10_toNat hb] at this
  omega

theorem digitChar10_isDigitRange {n : Nat} (h : n < 10) :
    48 ≤ (digitChar10 n).toNat ∧ (digitChar10 n).toNat ≤ 57 := by
  rw [digitChar10_toNat h]; omega

theorem natDecimal_chars :
    ∀ (n : Nat) (c : Char), c ∈ natDecimal n → 48 ≤ c.toNat ∧ c.toNat ≤ 57 := by
  intro n
  induction n using Nat.strong_induction_on with
  | _ n ih =>
    intro c hc
    by_cases hn : n < 10
    · rw [natDecimal_lt10 hn] at hc
      simp at hc
      subst hc
      exact digitChar10_isDigitRange hn
    · rw [natDecimal_ge10 (Nat.not_lt.mp hn)] at hc
      rcases List.mem_append.mp hc with h | h
      · exact ih (n / 10) (Nat.div_lt_self (by omega) (by omega)) c h
      · simp at h
        subst h
        exact digitChar10_isDigitRange (Nat.mod_lt n (by omega))

theorem natDecimal_ne_nil (n : Nat) : natDecimal n ≠ [] := by
  by_cases hn : n < 10
  · rw [natDecimal_lt10 hn]; simp
  · rw [natDecimal_ge10 (Nat.not_lt.mp hn)]; simp

theorem natDecimal_head_ne_zero :
    ∀ (n : Nat), 1 ≤ n → (natDecimal n).head? ≠ some '0' := by
  intro n
  induction n using Nat.strong_induction_on with
  | _ n ih =>
    intro hpos h
    by_cases hn : n < 10
    · rw [natDecimal_lt10 hn] at h
      simp at h
      have h0 : ('0' : Char).toNat = 48 := rfl
      have := congrArg Char.toNat h
      rw [digitChar10_toNat hn, h0] at this
      omega
    · have h10 : 10 ≤ n := Nat.not_lt.mp hn
      rw [natDecimal_ge10 h10, List.head?_append] at h
      have hne := natDecimal_ne_nil (n / 10)
      obtain ⟨c, hc⟩ := List.exists_mem_of_ne_nil _ hne
      have hh : (natDecimal (n / 10)).head? ≠ none := by
        simp [List.head?_eq_none_iff]
        exact hne
      obtain ⟨d, hd⟩ := Option.ne_none_iff_exists'.mp hh
      rw [hd] at h
      simp at h
      exact ih (n / 10) (Nat.div_lt_self (by omega) (by omega))
        (Nat.one_le_div_iff (by omega) |>.mpr h10) (by rw [hd, h])

theorem natDecimal_length_lt10 {n : Nat} (h : n < 10) :
    (natDecimal n).length = 1 := by
  rw [natDecimal_lt10 h]; rfl

theorem natDecimal_length_ge10 {n : Nat} (h : 10 ≤ n) :
    2 ≤ (natDecimal n).length := by
  rw [natDecimal_ge10 h]
  have := natDecimal_ne_nil (n / 10)
  have : 1 ≤ (natDecimal (n / 10)).length := by
    cases hl : natDecimal (n / 10) with
    | nil => exact absurd hl this
    | cons a l => simp
  simp only [List.length_append, List.length_cons, List.length_nil]
  omega

theorem natDecimal_inj :
    ∀ (a b : Nat), natDecimal a = natDecimal b → a = b := by
  intro a
  induction a using Nat.strong_induction_on with
  | _ a ih =>
    intro b h
    by_cases ha : a < 10 <;> by_cases hb : b < 10
    · rw [natDecimal_lt10 ha, natDecimal_lt10 hb] at h
      simp at h
      exact digitChar10_inj ha hb h
    · have := congrArg List.length h
      rw [natDecimal_length_lt10 ha] at this
      have := natDecimal_length_ge10 (Nat.not_lt.mp hb)
      omega
    · have := congrArg List.length h
      rw [natDecimal_length_lt10 hb] at this
      have := natDecimal_length_ge10 (Nat.not_lt.mp ha)
      omega
    · rw [natDecimal_ge10 (Nat.not_lt.mp ha), natDecimal_ge10 (Nat.not_lt.mp hb)] at h
      obtain ⟨h1, h2⟩ := List.append_inj' h (by rfl)
      have hdiv := ih (a / 10) (Nat.div_lt_self (by omega) (by omega)) (b / 10) h1
      simp at h2
      have hmod := digitChar10_inj (Nat.mod_lt a (by omega)) (Nat.mod_lt b (by omega)) h2
      omega

/-! ### `padStart` and filename injectivity -/

theorem pad2_lt10 {n : Nat} (h : n < 10) :
    pad2 n = '0' :: [digitChar10 n] := by
  simp [pad2, natDecimal_length_lt10 h, natDecimal_lt10 h, List.replicate]

theorem pad2_ge10 {n : Nat} (h : 10 ≤ n) : pad2 n = natDecimal n := by
  have := natDecimal_length_ge10 h
  simp only [pad2]
  rw [if_neg (by omega)]

theorem pad2_chars {n : Nat} {c : Char} (hc : c ∈ pad2 n) :
    48 ≤ c.toNat ∧ c.toNat ≤ 57 := by
  by_cases h : n < 10
  · rw [pad2_lt10 h] at hc
    simp at hc
    rcases hc with rfl | rfl
    · exact ⟨by decide, by decide⟩
    · exact digitChar10_isDigitRange h
  · rw [pad2_ge10 (Nat.not_lt.mp h)] at hc
    exact natDecimal_chars n c hc

theorem pad2_inj {a b : Nat} (h : pad2 a = pad2 b) : a = b := by
  by_cases ha : a < 10 <;> by_cases hb : b < 10
  · rw [pad2_lt10 ha, pad2_lt10 hb] at h
    simp at h
    exact digitChar10_inj ha hb h
  · rw [pad2_lt10 ha, pad2_ge10 (Nat.not_lt.mp hb)] at h
    have := natDecimal_head_ne_zero b (by omega)
    rw [← h] at this
    simp at this
  · rw [pad2_ge10 (Nat.not_lt.mp ha), pad2_lt10 hb] at h
    have := natDecimal_head_ne_zero a (by omega)
    rw [h] at this
    simp at this
  · rw [pad2_ge10 (Nat.not_lt.mp ha), pad2_ge10 (Nat.not_lt.mp hb)] at h
    exact natDecimal_inj a b h

/-- Splitting at the first underscore: if neither prefix contains an
underscore, equal concatenations force equal prefixes. -/
theorem underscore_split_inj :
    ∀ (l₁ l₂ t₁ t₂ : List Char), (∀ c ∈ l₁, c ≠ '_') → (∀ c ∈ l₂, c ≠ '_') →
      l₁ ++ '_' :: t₁ = l₂ ++ '_' :: t₂ → l₁ = l₂ := by
  intro l₁
  induction l₁ with
  | nil =>
    intro l₂ t₁ t₂ _ h₂ h
    cases l₂ with
    | nil => rfl
    | cons c cs =>
      simp at h
      exact absurd h.1.symm (h₂ c (by simp))
  | cons c cs ih =>
    intro l₂ t₁ t₂ h₁ h₂ h
    cases l₂ with
    | nil =>
      simp at h
      exact absurd h.1 (h₁ c (by simp))
    | cons d ds =>
      simp at h
      obtain ⟨hcd, hrest⟩ := h
      subst hcd
      rw [ih ds t₁ t₂ (fun x hx => h₁ x (by simp [hx]))
        (fun x hx => h₂ x (by simp [hx])) hrest]

theorem chapterFilename_num_inj {n₁ n₂ : Nat} {m₁ m₂ : String}
    (h : chapterFilename n₁ m₁ = chapterFilename n₂ m₂) : n₁ = n₂ := by
  have hdata : pad2 n₁ ++ '_' ::
      ((jsStrOrStr (sanitizeFilename m₁) ("chapter_" ++ natDecimalStr n₁)).data ++
        ('.' :: 'm' :: 'd' :: [])) =
      pad2 n₂ ++ '_' ::
      ((jsStrOrStr (sanitizeFilename m₂) ("chapter_" ++ natDecimalStr n₂)).data ++
        ('.' :: 'm' :: 'd' :: [])) := congrArg String.data h
  have h95 : ('_' : Char).toNat = 95 := rfl
  have hu₁ : ∀ c ∈ pad2 n₁, c ≠ '_' := by
    intro c hc heq
    have := pad2_chars hc
    rw [heq, h95] at this
    omega
  have hu₂ : ∀ c ∈ pad2 n₂, c ≠ '_' := by
    intro c hc heq
    have := pad2_chars hc
    rw [heq, h95] at this
    omega
  exact pad2_inj (underscore_split_inj _ _ _ _ hu₁ hu₂ hdata)

/-! ### Claim C8 — deterministic, collision-free chapter filenames -/

theorem deriveChapterInfosGo_num_gt {abstractions : List Abstraction} :
    ∀ (order : List Int) (i : Nat) (c : ChapterInfo),
      c ∈ deriveChapterInfosGo abstractions i order → i + 1 ≤ c.num := by
  intro order
  induction order with
  | nil => intro i c hc; simp [deriveChapterInfosGo] at hc
  | cons absIndex rest ih =>
    intro i c hc
    rw [deriveChapterInfosGo] at hc
    split at hc
    · rcases List.mem_cons.mp hc with rfl | hc
      · simp
      · have := ih (i + 1) c hc
        omega
    · have := ih (i + 1) c hc
      omega

theorem deriveChapterInfosGo_filename_eq {abstractions : List Abstraction} :
    ∀ (order : List Int) (i : Nat) (c : ChapterInfo),
      c ∈ deriveChapterInfosGo abstractions i order →
      c.filename = chapterFilename c.num c.name := by
  intro order
  induction order with
  | nil => intro i c hc; simp [deriveChapterInfosGo] at hc
  | cons absIndex rest ih =>
    intro i c hc
    rw [deriveChapterInfosGo] at hc
    split at hc
    · rcases List.mem_cons.mp hc with rfl | hc
      · rfl
      · exact ih (i + 1) c hc
    · exact ih (i + 1) c hc

theorem deriveChapterInfosGo_pairwise_num (abstractions : List Abstraction) :
    ∀ (order : List Int) (i : Nat),
      (deriveChapterInfosGo abstractions i order).Pairwise
        (fun a b => a.num < b.num) := by
  intro order
  induction order with
  | nil => intro i; simp [deriveChapterInfosGo]
  | cons absIndex rest ih =>
    intro i
    rw [deriveChapterInfosGo]
    split
    · refine List.Pairwise.cons ?_ (ih (i + 1))
      intro c hc
      have := deriveChapterInfosGo_num_gt rest (i + 1) c hc
      simp only []
      omega
    · exact ih (i + 1)

/-- **C8**: chapter filenames are derived deterministically, before any
chapter body is authored, as zero-padded ordinal + `_` + sanitized title
(with the `chapter_<n>` fallback for empty sanitizations) + `.md`; and in
every produced chapter set any two distinct chapters have distinct
filenames. -/
theorem claim_C8_filenames_unique :
    ∀ (abstractions : List Abstraction) (chapterOrder : List Int),
      (∀ c ∈ deriveChapterInfos abstractions chapterOrder,
        c.filename = chapterFilename c.num c.name) ∧
      (deriveChapterInfos abstractions chapterOrder).Pairwise
        (fun a b => a.filename ≠ b.filename) := by
  intro abstractions chapterOrder
  constructor
  · intro c hc
    exact deriveChapterInfosGo_filename_eq chapterOrder 0 c hc
  · have hnum := deriveChapterInfosGo_pairwise_num abstractions chapterOrder 0
    refine List.Pairwise.imp_of_mem ?_ hnum
    intro a b ha hb hlt heq
    rw [deriveChapterInfosGo_filename_eq chapterOrder 0 a ha,
      deriveChapterInfosGo_filename_eq chapterOrder 0 b hb] at heq
    have := chapterFilename_num_inj heq
    omega

/-- Witness for C8 at a concrete chapter set: two abstractions ordered
`[1, 0]` give filenames `01_Beta.md` and `02_Alpha.md`, distinct. -/
theorem claim_C8_witness :
    (∀ c ∈ deriveChapterInfos
        [⟨"Alpha", "a", [0]⟩, ⟨"Beta", "b", [1]⟩] [(1 : Int), 0],
      c.filename = chapterFilename c.num c.name) ∧
    (deriveChapterInfos
        [⟨"Alpha", "a", [0]⟩, ⟨"Beta", "b", [1]⟩] [(1 : Int), 0]).Pairwise
      (fun a b => a.filename ≠ b.filename) :=
  claim_C8_filenames_unique [⟨"Alpha", "a", [0]⟩, ⟨"Beta", "b", [1]⟩] [(1 : Int), 0]

/-! ### Claim C4 — the Chapter Ordering permutation invariant -/

theorem orderEntriesLoop_ok {m : Nat} :
    ∀ (entries : List IdxVal) (seen ordered fOrd fSeen : List Int),
      orderEntriesLoop m entries seen ordered = Except.ok (fOrd, fSeen) →
      ∃ idxs, canonAll entries = some idxs ∧
        fOrd = ordered ++ idxs ∧
        (∀ x ∈ idxs, 0 ≤ x ∧ x < (m : Int)) ∧
        idxs.Nodup ∧
        (∀ x ∈ idxs, x ∉ seen) ∧
        (∀ x, x ∈ fSeen ↔ x ∈ seen ∨ x ∈ idxs) := by
  intro entries
  induction entries with
  | nil =>
    intro seen ordered fOrd fSeen h
    rw [orderEntriesLoop] at h
    injection h with h
    injection h with h1 h2
    subst h1; subst h2
    exact ⟨[], rfl, by simp, by simp, by simp, by simp, by simp⟩
  | cons entry rest ih =>
    intro seen ordered fOrd fSeen h
    rw [orderEntriesLoop] at h
    rcases hc : canonIdx entry with _ | idx
    · rw [hc] at h; exact absurd h (by simp)
    · rw [hc] at h
      simp only [] at h
      by_cases hr : idx < 0 ∨ (m : Int) ≤ idx
      · rw [if_pos hr] at h; exact absurd h (by simp)
      · rw [if_neg hr] at h
        by_cases hs : idx ∈ seen
        · rw [if_pos hs] at h; exact absurd h (by simp)
        · rw [if_neg hs] at h
          obtain ⟨idxs', hcanon, hford, hrange, hnodup, hfresh, hseen⟩ :=
            ih (jsSetAdd seen idx) (ordered ++ [idx]) fOrd fSeen h
          refine ⟨idx :: idxs', ?_, ?_, ?_, ?_, ?_, ?_⟩
          · rw [canonAll, hc, hcanon]
          · rw [hford, List.append_assoc]; rfl
          · intro x hx
            rcases List.mem_cons.mp hx with rfl | hx
            · omega
            · exact hrange x hx
          · refine List.nodup_cons.mpr ⟨?_, hnodup⟩
            intro hmem
            exact hfresh idx hmem mem_jsSetAdd_self
          · intro x hx
            rcases List.mem_cons.mp hx with rfl | hx
            · exact hs
            · exact fun hxs => hfresh x hx (mem_of_mem_jsSetAdd_base hxs)
          · intro x
            rw [hseen x, mem_jsSetAdd]
            constructor
            · rintro ((hx | rfl) | hx)
              · exact Or.inl hx
              · exact Or.inr (List.mem_cons_self _ _)
              · exact Or.inr (List.mem_cons_of_mem _ hx)
            · rintro (hx | hx)
              · exact Or.inl (Or.inl hx)
              · rcases List.mem_cons.mp hx with rfl | hx
                · exact Or.inl (Or.inr rfl)
                · exact Or.inr hx

theorem orderEntriesLoop_complete {m : Nat} :
    ∀ (entries : List IdxVal) (idxs seen ordered : List Int),
      canonAll entries = some idxs →
      (∀ x ∈ idxs, 0 ≤ x ∧ x < (m : Int)) →
      idxs.Nodup →
      (∀ x ∈ idxs, x ∉ seen) →
      ∃ fSeen, orderEntriesLoop m entries seen ordered =
        Except.ok (ordered ++ idxs, fSeen) := by
  intro entries
  induction entries with
  | nil =>
    intro idxs seen ordered hcanon _ _ _
    rw [canonAll] at hcanon
    injection hcanon with hcanon
    subst hcanon
    exact ⟨seen, by rw [orderEntriesLoop]; simp⟩
  | cons entry rest ih =>
    intro idxs seen ordered hcanon hrange hnodup hfresh
    rw [canonAll] at hcanon
    rcases hc : canonIdx entry with _ | idx
    · rw [hc] at hcanon; exact absurd hcanon (by simp)
    · rw [hc] at hcanon
      rcases hrest : canonAll rest with _ | idxs'
      · rw [hrest] at hcanon; exact absurd hcanon (by simp)
      · rw [hrest] at hcanon
        simp only [] at hcanon
        injection hcanon with hcanon
        subst hcanon
        have hidx := hrange idx (List.mem_cons_self _ _)
        obtain ⟨fSeen, hloop⟩ := ih idxs' (jsSetAdd seen idx) (ordered ++ [idx])
          hrest (fun x hx => hrange x (List.mem_cons_of_mem _ hx))
          (List.nodup_cons.mp hnodup).2
          (fun x hx hmem => by
            rcases mem_jsSetAdd.mp hmem with hxs | rfl
            · exact hfresh x (List.mem_cons_of_mem _ hx) hxs
            · exact (List.nodup_cons.mp hnodup).1 hx)
        refine ⟨fSeen, ?_⟩
        rw [orderEntriesLoop, hc]
        simp only []
        rw [if_neg (by omega), if_neg (hfresh idx (List.mem_cons_self _ _)), hloop,
          List.append_assoc]
        rfl

/-- Canonical in-range, duplicate-free indices of full length form a
permutation of `0..m-1`. -/
theorem perm_range_of_nodup_lt {m : Nat} {idxs : List Int}
    (hrange : ∀ x ∈ idxs, 0 ≤ x ∧ x < (m : Int)) (hnodup : idxs.Nodup)
    (hlen : idxs.length = m) :
    idxs.Perm ((List.range m).map Int.ofNat) := by
  have hsub : idxs ⊆ (List.range m).map Int.ofNat := by
    intro x hx
    obtain ⟨h0, hm⟩ := hrange x hx
    refine List.mem_map.mpr ⟨x.toNat, List.mem_range.mpr ?_, ?_⟩
    · omega
    · exact Int.toNat_of_nonneg h0
  have hsp := hnodup.subperm hsub
  refine hsp.perm_of_length_le ?_
  rw [hlen, List.length_map, List.length_range]

/-- **C4**: the Chapter Ordering validator accepts exactly the sequences
whose entries all canonicalize to in-range indices with no duplicates and
length equal to the abstraction count — i.e. permutations of `0..M-1`;
for two abstractions, `[1, 0]` is accepted and `[0, 0]` is rejected. -/
theorem claim_C4_order_permutation :
    (∀ (m : Nat) (parsed : List IdxVal),
      (∃ out, chapterOrderValidator m parsed = Except.ok out) ↔
        ∃ idxs, canonAll parsed = some idxs ∧
          (∀ x ∈ idxs, 0 ≤ x ∧ x < (m : Int)) ∧ idxs.Nodup ∧
          idxs.length = m) ∧
    (∀ (m : Nat) (parsed : List IdxVal) (idxs : List Int),
      (∃ out, chapterOrderValidator m parsed = Except.ok out) →
      canonAll parsed = some idxs →
      idxs.Perm ((List.range m).map Int.ofNat)) ∧
    chapterOrderValidator 2 (IdxVal.int 1 :: IdxVal.int 0 :: []) =
      Except.ok (IdxVal.int 1 :: IdxVal.int 0 :: []) ∧
    chapterOrderValidator 2 (IdxVal.int 0 :: IdxVal.int 0 :: []) =
      Except.error "Duplicate index 0 found in ordered list." := by
  have hfwd : ∀ (m : Nat) (parsed : List IdxVal),
      (∃ out, chapterOrderValidator m parsed = Except.ok out) →
      ∃ idxs, canonAll parsed = some idxs ∧
        (∀ x ∈ idxs, 0 ≤ x ∧ x < (m : Int)) ∧ idxs.Nodup ∧ idxs.length = m := by
    intro m parsed ⟨out, hout⟩
    rw [chapterOrderValidator] at hout
    rcases hloop : orderEntriesLoop m parsed [] [] with e | ⟨fOrd, fSeen⟩
    · rw [hloop] at hout; exact absurd hout (by simp)
    · rw [hloop] at hout
      simp only [] at hout
      by_cases hlen : fOrd.length ≠ m
      · rw [if_pos hlen] at hout; exact absurd hout (by simp)
      · obtain ⟨idxs, hcanon, hford, hrange, hnodup, _, _⟩ :=
          orderEntriesLoop_ok parsed [] [] fOrd fSeen hloop
        rw [hford] at hlen
        simp at hlen
        exact ⟨idxs, hcanon, hrange, hnodup, hlen⟩
  refine ⟨?_, ?_, rfl, rfl⟩
  · intro m parsed
    constructor
    · exact hfwd m parsed
    · rintro ⟨idxs, hcanon, hrange, hnodup, hlen⟩
      obtain ⟨fSeen, hloop⟩ := orderEntriesLoop_complete parsed idxs [] []
        hcanon hrange hnodup (by simp)
      refine ⟨parsed, ?_⟩
      rw [chapterOrderValidator, hloop]
      simp [hlen]
  · intro m parsed idxs hacc hcanon
    obtain ⟨idxs', hcanon', hrange, hnodup, hlen⟩ := hfwd m parsed hacc
    rw [hcanon] at hcanon'
    injection hcanon' with hcanon'
    subst hcanon'
    exact perm_range_of_nodup_lt hrange hnodup hlen

/-- Witness for C4 at the claim's concrete inputs: `[1, 0]` with two
abstractions is accepted, and its canonical form is a permutation of
`{0, 1}`. -/
theorem claim_C4_witness :
    (∃ out, chapterOrderValidator 2 (IdxVal.int 1 :: IdxVal.int 0 :: []) =
      Except.ok out) ∧
    ([1, 0] : List Int).Perm ((List.range 2).map Int.ofNat) := by
  have h := claim_C4_order_permutation
  have hacc := (h.1 2 (IdxVal.int 1 :: IdxVal.int 0 :: [])).mpr
    ⟨[1, 0], rfl, by decide, by decide, rfl⟩
  exact ⟨hacc, h.2.1 2 (IdxVal.int 1 :: IdxVal.int 0 :: []) [1, 0] hacc rfl⟩

/-! ### Claim C6 — Discovery file-index normalization and rejection -/

theorem dedupSort_nodup (l : List Int) : (dedupSort l).Nodup := by
  rw [dedupSort]
  exact (List.perm_insertionSort _ _).nodup_iff.mpr l.nodup_dedup

theorem dedupSort_sorted_le (l : List Int) :
    (dedupSort l).Sorted (· ≤ ·) := List.sorted_insertionSort _ _

theorem dedupSort_sorted_lt (l : List Int) :
    (dedupSort l).Sorted (· < ·) :=
  (dedupSort_sorted_le l).lt_of_le (dedupSort_nodup l)

theorem mem_dedupSort {l : List Int} {x : Int} :
    x ∈ dedupSort l ↔ x ∈ l := by
  rw [dedupSort, (List.perm_insertionSort _ _).mem_iff, List.mem_dedup]

theorem absIndicesLoop_ok {fileCount : Nat} {itemName : String} :
    ∀ (entries : List IdxVal) (indices : List Int),
      absIndicesLoop fileCount itemName entries = Except.ok indices →
      canonAll entries = some indices ∧
        ∀ x ∈ indices, 0 ≤ x ∧ x < (fileCount : Int) := by
  intro entries
  induction entries with
  | nil =>
    intro indices h
    rw [absIndicesLoop] at h
    injection h with h
    subst h
    exact ⟨rfl, by simp⟩
  | cons e rest ih =>
    intro indices h
    rw [absIndicesLoop] at h
    rcases hc : canonIdx e with _ | idx
    · rw [hc] at h; exact absurd h (by simp)
    · rw [hc] at h
      simp only [] at h
      by_cases hr : idx < 0 ∨ (fileCount : Int) ≤ idx
      · rw [if_pos hr] at h; exact absurd h (by simp)
      · rw [if_neg hr] at h
        rcases hrest : absIndicesLoop fileCount itemName rest with m | tail
        · rw [hrest] at h; exact absurd h (by simp)
        · rw [hrest] at h
          simp only [] at h
          injection h with h
          subst h
          obtain ⟨hcanon, hrange⟩ := ih tail hrest
          refine ⟨by rw [canonAll, hc, hcanon], ?_⟩
          intro x hx
          rcases List.mem_cons.mp hx with rfl | hx
          · omega
          · exact hrange x hx

theorem canonAll_entry_sound :
    ∀ (l : List IdxVal) (vs : List Int), canonAll l = some vs →
      ∀ e ∈ l, ∃ n, canonIdx e = some n ∧ n ∈ vs := by
  intro l
  induction l with
  | nil => intro vs _ e he; simp at he
  | cons x xs ihx =>
    intro vs hcanon e he
    rw [canonAll] at hcanon
    rcases hx : canonIdx x with _ | v
    · rw [hx] at hcanon; exact absurd hcanon (by simp)
    · rw [hx] at hcanon
      rcases hxs : canonAll xs with _ | ws
      · rw [hxs] at hcanon; exact absurd hcanon (by simp)
      · rw [hxs] at hcanon
        simp only [] at hcanon
        injection hcanon with hcanon
        subst hcanon
        rcases List.mem_cons.mp he with rfl | he
        · exact ⟨v, hx, List.mem_cons_self _ _⟩
        · obtain ⟨n, hn, hmem⟩ := ihx ws hxs e he
          exact ⟨n, hn, List.mem_cons_of_mem _ hmem⟩

theorem abstractionsValidator_ok {fileCount : Nat} :
    ∀ (parsed : List RawAbstraction) (out : List Abstraction),
      abstractionsValidator fileCount parsed = Except.ok out →
      (∀ a ∈ out, a.files.Nodup ∧ a.files.Sorted (· < ·) ∧
        ∀ i ∈ a.files, 0 ≤ i ∧ i < (fileCount : Int)) ∧
      (∀ item ∈ parsed, ∀ l, effFileIndices item = some l →
        ∀ e ∈ l, ∃ n, canonIdx e = some n ∧ 0 ≤ n ∧ n < (fileCount : Int)) := by
  intro parsed
  induction parsed with
  | nil =>
    intro out h
    rw [abstractionsValidator] at h
    injection h with h
    subst h
    exact ⟨by simp, by simp⟩
  | cons item rest ih =>
    intro out h
    rw [abstractionsValidator] at h
    rcases hnm : item.name with _ | nm
    · rw [hnm] at h; exact absurd h (by simp)
    · rw [hnm] at h
      rcases hds : item.description with _ | descr
      · rw [hds] at h; exact absurd h (by simp)
      · rw [hds] at h
        simp only [] at h
        by_cases hem : nm = "" ∨ descr = ""
        · rw [if_pos hem] at h; exact absurd h (by simp)
        · rw [if_neg hem] at h
          rcases heff : effFileIndices item with _ | fi
          · rw [heff] at h; exact absurd h (by simp)
          · rw [heff] at h
            simp only [] at h
            rcases hloop : absIndicesLoop fileCount nm fi with m | indices
            · rw [hloop] at h; exact absurd h (by simp)
            · rw [hloop] at h
              rcases hrest : abstractionsValidator fileCount rest with m | tail
              · rw [hrest] at h; exact absurd h (by simp)
              · rw [hrest] at h
                simp only [] at h
                injection h with h
                subst h
                obtain ⟨hcanon, hrange⟩ := absIndicesLoop_ok fi indices hloop
                obtain ⟨ihout, ihitems⟩ := ih tail hrest
                constructor
                · intro a ha
                  rcases List.mem_cons.mp ha with rfl | ha
                  · refine ⟨dedupSort_nodup indices, dedupSort_sorted_lt indices, ?_⟩
                    intro i hi
                    exact hrange i (mem_dedupSort.mp hi)
                  · exact ihout a ha
                · intro it hit l hl e he
                  rcases List.mem_cons.mp hit with rfl | hit
                  · rw [heff] at hl
                    injection hl with hl
                    subst hl
                    obtain ⟨n, hn, hmem⟩ := canonAll_entry_sound fi indices hcanon e he
                    exact ⟨n, hn, hrange n hmem⟩
                  · exact ihitems it hit l hl e he

/-- An index entry that is unparsable, negative, or `≥ fileCount`. -/
def badFileIdx (fileCount : Nat) (e : IdxVal) : Prop :=
  canonIdx e = none ∨ ∃ n, canonIdx e = some n ∧ (n < 0 ∨ (fileCount : Int) ≤ n)

/-- **C6**: every abstraction record accepted by the Discovery validator
has a duplicate-free, strictly ascending file-index list with every
element in `[0, fileCount)`; and any record containing an unparsable,
negative or out-of-range index makes the validator reject the whole
output. -/
theorem claim_C6_file_index_normalization :
    (∀ (fileCount : Nat) (parsed : List RawAbstraction) (out : List Abstraction),
      abstractionsValidator fileCount parsed = Except.ok out →
      ∀ a ∈ out, a.files.Nodup ∧ a.files.Sorted (· < ·) ∧
        ∀ i ∈ a.files, 0 ≤ i ∧ i < (fileCount : Int)) ∧
    (∀ (fileCount : Nat) (parsed : List RawAbstraction)
        (item : RawAbstraction) (l : List IdxVal) (e : IdxVal),
      item ∈ parsed → effFileIndices item = some l → e ∈ l →
      badFileIdx fileCount e →
      ∀ out, abstractionsValidator fileCount parsed ≠ Except.ok out) := by
  constructor
  · intro fileCount parsed out h
    exact (abstractionsValidator_ok parsed out h).1
  · intro fileCount parsed item l e hitem heff he hbad out hok
    obtain ⟨n, hn, h0, hfc⟩ :=
      (abstractionsValidator_ok parsed out hok).2 item hitem l heff e he
    rcases hbad with hnone | ⟨n', hn', hout⟩
    · rw [hn] at hnone; exact absurd hnone (by simp)
    · rw [hn] at hn'
      injection hn' with hn'
      subst hn'
      omega

/-- Witness for C6: with 3 files, a record citing indices
`[2, "0 # a", 2]` is accepted with `files` normalized to `[0, 2]`
(deduplicated, ascending, in range), and a record citing index 5 is
rejected. -/
theorem claim_C6_witness :
    ((⟨"A", "D", dedupSort [2, 0, 2]⟩ : Abstraction).files.Nodup ∧
      (⟨"A", "D", dedupSort [2, 0, 2]⟩ : Abstraction).files.Sorted (· < ·) ∧
      ∀ i ∈ (⟨"A", "D", dedupSort [2, 0, 2]⟩ : Abstraction).files,
        0 ≤ i ∧ i < ((3 : Nat) : Int)) ∧
    ∀ out, abstractionsValidator 3
      [⟨some "B", some "E", some [IdxVal.int 5], none⟩] ≠ Except.ok out := by
  constructor
  · refine claim_C6_file_index_normalization.1 3
      [⟨some "A", some "D", some [IdxVal.int 2, IdxVal.str "0 # a", IdxVal.int 2],
        none⟩]
      [⟨"A", "D", dedupSort [2, 0, 2]⟩] ?_ _ (by simp)
    rfl
  · intro out
    exact claim_C6_file_index_normalization.2 3
      [⟨some "B", some "E", some [IdxVal.int 5], none⟩]
      ⟨some "B", some "E", some [IdxVal.int 5], none⟩
      [IdxVal.int 5] (IdxVal.int 5) (by simp) rfl (by simp)
      (Or.inr ⟨5, rfl, Or.inr (by norm_num)⟩) out

/-! ### Claim C3 — the Relationship Inference coverage invariant -/

theorem relEdgesLoop_ok {m : Nat} :
    ∀ (rels : List RawRel) (mentioned : List Int)
      (canonical : List Relationship) (fMentioned : List Int),
      relEdgesLoop m rels mentioned = Except.ok (canonical, fMentioned) →
      (∀ r ∈ canonical, 0 ≤ r.frm ∧ r.frm < (m : Int) ∧
        0 ≤ r.toIdx ∧ r.toIdx < (m : Int)) ∧
      (∀ x, x ∈ fMentioned ↔
        x ∈ mentioned ∨ ∃ r ∈ canonical, r.frm = x ∨ r.toIdx = x) ∧
      (mentioned.Nodup → fMentioned.Nodup) := by
  intro rels
  induction rels with
  | nil =>
    intro mentioned canonical fMentioned h
    rw [relEdgesLoop] at h
    injection h with h
    injection h with h1 h2
    subst h1; subst h2
    exact ⟨by simp, by simp, fun hn => hn⟩
  | cons rel rest ih =>
    intro mentioned canonical fMentioned h
    rw [relEdgesLoop] at h
    rcases hf : relFromField rel with _ | fv
    · rw [hf] at h; exact absurd h (by simp)
    rcases ht : relToField rel with _ | tv
    · rw [hf, ht] at h; exact absurd h (by simp)
    rcases hlab : rel.label with _ | lab
    · rw [hf, ht, hlab] at h; exact absurd h (by simp)
    rw [hf, ht, hlab] at h
    simp only [] at h
    rcases hfi : canonRelIdx fv with _ | fi
    · rw [hfi] at h; exact absurd h (by simp)
    rcases hti : canonRelIdx tv with _ | ti
    · rw [hfi, hti] at h; exact absurd h (by simp)
    rw [hfi, hti] at h
    simp only [] at h
    by_cases hr : fi < 0 ∨ (m : Int) ≤ fi ∨ ti < 0 ∨ (m : Int) ≤ ti
    · rw [if_pos hr] at h; exact absurd h (by simp)
    · rw [if_neg hr] at h
      rcases hloop : relEdgesLoop m rest (jsSetAdd (jsSetAdd mentioned fi) ti)
        with e | ⟨tail, mentioned'⟩
      · rw [hloop] at h; exact absurd h (by simp)
      · rw [hloop] at h
        simp only [] at h
        injection h with h
        injection h with h1 h2
        subst h1; subst h2
        obtain ⟨ihrange, ihmem, ihnodup⟩ := ih _ tail mentioned' hloop
        refine ⟨?_, ?_, ?_⟩
        · intro r hr'
          rcases List.mem_cons.mp hr' with rfl | hr'
          · dsimp only
            omega
          · exact ihrange r hr'
        · intro x
          rw [ihmem x, mem_jsSetAdd, mem_jsSetAdd]
          constructor
          · rintro (((hx | rfl) | rfl) | ⟨r, hrr, hor⟩)
            · exact Or.inl hx
            · exact Or.inr ⟨_, List.mem_cons_self _ _, Or.inl rfl⟩
            · exact Or.inr ⟨_, List.mem_cons_self _ _, Or.inr rfl⟩
            · exact Or.inr ⟨r, List.mem_cons_of_mem _ hrr, hor⟩
          · rintro (hx | ⟨r, hrr, hor⟩)
            · exact Or.inl (Or.inl (Or.inl hx))
            · rcases List.mem_cons.mp hrr with rfl | hrr
              · rcases hor with h1 | h2
                · exact Or.inl (Or.inl (Or.inr h1.symm))
                · exact Or.inl (Or.inr h2.symm)
              · exact Or.inr ⟨r, hrr, hor⟩
        · intro hn
          exact ihnodup (jsSetAdd_nodup (jsSetAdd_nodup hn))

/-- **C3**: a graph is accepted by the Relationship Inference validator
only if the canonicalized `from`/`to` indices of its edges are all in
`[0, M)` and jointly cover every index of `{0..M-1}`; incomplete coverage
(with otherwise canonicalizable edges) is rejected with the reason
listing the missing indices; with 2 abstractions, the single edge `0→1`
is accepted. -/
theorem claim_C3_coverage_invariant :
    (∀ (m : Nat) (parsed : RawRelationshipData) (out : RelationshipData),
      relationshipsValidator m parsed = Except.ok out →
      (∀ r ∈ out.details, 0 ≤ r.frm ∧ r.frm < (m : Int) ∧
        0 ≤ r.toIdx ∧ r.toIdx < (m : Int)) ∧
      (∀ i : Nat, i < m →
        ∃ r ∈ out.details, r.frm = Int.ofNat i ∨ r.toIdx = Int.ofNat i)) ∧
    (∀ (m : Nat) (parsed : RawRelationshipData) (summ : String)
        (relArr : List RawRel) (canonical : List Relationship)
        (mentioned : List Int),
      parsed.summary = some summ →
      effectiveRelArray parsed = some relArr →
      relEdgesLoop m relArr [] = Except.ok (canonical, mentioned) →
      mentioned.length ≠ m →
      relationshipsValidator m parsed =
        Except.error (missingCoverageMsg m mentioned)) ∧
    relationshipsValidator 2
        ⟨some "s",
         some [⟨some (IdxVal.int 0), some (IdxVal.int 1), none, none, some "uses"⟩],
         none⟩ =
      Except.ok ⟨"s", [⟨0, 1, "uses"⟩], some [⟨0, 1, "uses"⟩]⟩ := by
  refine ⟨?_, ?_, rfl⟩
  · intro m parsed out h
    rw [relationshipsValidator] at h
    rcases hs : parsed.summary with _ | summ
    · rw [hs] at h; exact absurd h (by simp)
    rw [hs] at h
    simp only [] at h
    rcases harr : effectiveRelArray parsed with _ | relArr
    · rw [harr] at h; exact absurd h (by simp)
    rw [harr] at h
    simp only [] at h
    rcases hloop : relEdgesLoop m relArr [] with e | ⟨canonical, mentioned⟩
    · rw [hloop] at h; exact absurd h (by simp)
    rw [hloop] at h
    simp only [] at h
    by_cases hlen : mentioned.length ≠ m
    · rw [if_pos hlen] at h; exact absurd h (by simp)
    · rw [if_neg hlen] at h
      injection h with h
      subst h
      obtain ⟨hrange, hmem, hnodup⟩ :=
        relEdgesLoop_ok relArr [] canonical mentioned hloop
      have hmem' : ∀ x, x ∈ mentioned ↔
          ∃ r ∈ canonical, r.frm = x ∨ r.toIdx = x := by
        intro x
        rw [hmem x]
        simp
      refine ⟨hrange, ?_⟩
      have hperm : mentioned.Perm ((List.range m).map Int.ofNat) := by
        refine perm_range_of_nodup_lt ?_ (hnodup (by simp)) (by omega)
        intro x hx
        obtain ⟨r, hrr, hor⟩ := (hmem' x).mp hx
        obtain ⟨h1, h2, h3, h4⟩ := hrange r hrr
        rcases hor with rfl | rfl
        · exact ⟨h1, h2⟩
        · exact ⟨h3, h4⟩
      intro i hi
      refine (hmem' (Int.ofNat i)).mp ?_
      rw [hperm.mem_iff]
      exact List.mem_map.mpr ⟨i, List.mem_range.mpr hi, rfl⟩
  · intro m parsed summ relArr canonical mentioned hs harr hloop hlen
    rw [relationshipsValidator, hs]
    simp only []
    rw [harr]
    simp only []
    rw [hloop]
    simp only []
    rw [if_pos hlen]

/-- Witness for C3 at concrete inputs: the accepted single-edge graph
`0→1` over 2 abstractions covers both indices, and the same edge set over
3 abstractions is rejected with missing index 2. -/
theorem claim_C3_witness :
    (∀ i : Nat, i < 2 →
      ∃ r ∈ ([⟨0, 1, "uses"⟩] : List Relationship),
        r.frm = Int.ofNat i ∨ r.toIdx = Int.ofNat i) ∧
    relationshipsValidator 3
        ⟨some "s",
         some [⟨some (IdxVal.int 0), some (IdxVal.int 1), none, none, some "uses"⟩],
         none⟩ =
      Except.error (missingCoverageMsg 3 [0, 1]) := by
  constructor
  · exact (claim_C3_coverage_invariant.1 2
      ⟨some "s",
       some [⟨some (IdxVal.int 0), some (IdxVal.int 1), none, none, some "uses"⟩],
       none⟩
      ⟨"s", [⟨0, 1, "uses"⟩], some [⟨0, 1, "uses"⟩]⟩
      claim_C3_coverage_invariant.2.2).2
  · exact claim_C3_coverage_invariant.2.1 3
      ⟨some "s",
       some [⟨some (IdxVal.int 0), some (IdxVal.int 1), none, none, some "uses"⟩],
       none⟩
      "s" [⟨some (IdxVal.int 0), some (IdxVal.int 1), none, none, some "uses"⟩]
      [⟨0, 1, "uses"⟩] [0, 1] rfl rfl rfl (by decide)

/-! ### Claim C2 — retry exhaustion with an always-failing validator -/

/-- A gateway response text that survives extraction and parsing, so that
the caller's validator is actually invoked on the attempt. -/
def goodText {T : Type} (parser : String → Except String T) (t : String) : Prop :=
  t ≠ "" ∧ ∃ b, extractYamlBlock t = some b ∧ ∃ v, parser b = Except.ok v

theorem cacheGet_mem :
    ∀ (cache : List (String × String)) (p t : String),
      cacheGet cache p = some t → ∃ e ∈ cache, e.2 = t := by
  intro cache
  induction cache with
  | nil => intro p t h; rw [cacheGet] at h; exact absurd h (by simp)
  | cons e rest ih =>
    intro p t h
    rw [cacheGet] at h
    by_cases he : e.1 = p
    · rw [if_pos he] at h
      injection h with h
      exact ⟨e, List.mem_cons_self _ _, h⟩
    · rw [if_neg he] at h
      obtain ⟨e', he', ht⟩ := ih p t h
      exact ⟨e', List.mem_cons_of_mem _ he', ht⟩

/-- When the provider always answers with a good text and every cache
entry is good, a gateway call succeeds with a good text, preserves
cache goodness, and bumps the invocation counter by one. -/
theorem callLlm_step_good {T : Type} {parser : String → Except String T}
    {provider : Nat → String → ProviderOutcome} {p : String} {useCache : Bool}
    {st : GwState}
    (hprov : ∀ k q, ∃ t, provider k q = ProviderOutcome.ok t ∧ goodText parser t)
    (hcache : ∀ e ∈ st.cache, goodText parser e.2) :
    ∃ t st', callLlm provider true p useCache st =
        ({ success := true, text := some t, error := none }, st') ∧
      goodText parser t ∧ (∀ e ∈ st'.cache, goodText parser e.2) ∧
      st'.gwCalls = st.gwCalls + 1 := by
  obtain ⟨cache, pc, gc⟩ := st
  by_cases hhit : useCache = true ∧ (cacheGet cache p).isSome
  · obtain ⟨hc, hhit'⟩ := hhit
    obtain ⟨t, ht⟩ := Option.isSome_iff_exists.mp hhit'
    subst hc
    refine ⟨t, ⟨cache, pc, gc + 1⟩, ?_, ?_, hcache, rfl⟩
    · simp only [callLlm, not_true, if_false, ht, Option.isSome_some, and_true,
        if_true, true_and]
    · obtain ⟨e, he, het⟩ := cacheGet_mem cache p t ht
      rw [← het]
      exact hcache e he
  · obtain ⟨t, hpt, hgood⟩ := hprov pc p
    have ht0 : t ≠ "" := hgood.1
    by_cases hc : useCache = true
    · subst hc
      have hmiss : ¬ (cacheGet cache p).isSome := fun hs => hhit ⟨rfl, hs⟩
      refine ⟨t, ⟨(p, t) :: cache, pc + 1, gc + 1⟩, ?_, hgood, ?_, rfl⟩
      · simp only [callLlm, not_true, if_false, hmiss, and_false, hpt, ht0,
          if_false, if_true]
        simp
      · intro e he
        rcases List.mem_cons.mp he with rfl | he
        · exact hgood
        · exact hcache e he
    · have hc' : useCache = false := by
        cases useCache
        · rfl
        · exact absurd rfl hc
      subst hc'
      refine ⟨t, ⟨cache, pc + 1, gc + 1⟩, ?_, hgood, hcache, rfl⟩
      simp only [callLlm, not_true, if_false, false_and, hpt, ht0, if_false,
        if_true]
      simp

theorem retryGo_always_fail {T U : Type}
    {provider : Nat → String → ProviderOutcome} {promptGen : Nat → String}
    {parser : String → Except String T} {validator : T → Except String U}
    {stringify : T → String} {maxRetries : Nat} {useCache : Bool}
    (hval : ∀ v : T, ∃ r, validator v = Except.error r)
    (hprov : ∀ k q, ∃ t, provider k q = ProviderOutcome.ok t ∧ goodText parser t) :
    ∀ (fuel : Nat) (lastErr : String) (st : GwState), 1 ≤ fuel →
      (∀ e ∈ st.cache, goodText parser e.2) →
      ∃ v r st', validator v = Except.error r ∧
        retryGo provider true promptGen parser validator stringify maxRetries
            useCache fuel lastErr st =
          (RetryResult.fail (validationFailMsg r (strTake (stringify v) 500)), st') ∧
        st'.gwCalls = st.gwCalls + fuel := by
  intro fuel
  induction fuel with
  | zero => intro lastErr st h; omega
  | succ f ihf =>
    intro lastErr st _ hcache
    obtain ⟨t, st1, hstep, ⟨ht0, b, hb, v, hv⟩, hcache1, hgw⟩ :=
      @callLlm_step_good T parser provider (promptGen (maxRetries - (f + 1)))
        useCache st hprov hcache
    obtain ⟨r, hr⟩ := hval v
    rw [retryGo, hstep]
    simp only [if_neg ht0, hb, hv, hr]
    rcases Nat.eq_zero_or_pos f with rfl | hf
    · rw [retryGo]
      exact ⟨v, r, st1, hr, rfl, by omega⟩
    · obtain ⟨v', r', st', hr', hrec, hgw'⟩ := ihf _ st1 hf hcache1
      rw [hrec]
      exact ⟨v', r', st', hr', rfl, by omega⟩

/-- **C2**: for every prompt factory, parser and `maxAttempts ≥ 1`, when
the supplied validator fails on every invocation (and every attempt's
gateway response reaches validation — the provider answers with texts
that extract and parse, as do any pre-existing cache entries), the
Retry-Validate Loop invokes the Completion Gateway exactly `maxAttempts`
times and returns a failure whose error message carries the last
recorded validation reason. -/
theorem claim_C2_retry_exhaustion {T U : Type} :
    ∀ (provider : Nat → String → ProviderOutcome) (promptGen : Nat → String)
      (parser : String → Except String T) (validator : T → Except String U)
      (stringify : T → String) (maxRetries : Nat) (useCache : Bool)
      (st : GwState),
      1 ≤ maxRetries →
      (∀ v : T, ∃ r, validator v = Except.error r) →
      (∀ k q, ∃ t, provider k q = ProviderOutcome.ok t ∧ goodText parser t) →
      (∀ e ∈ st.cache, goodText parser e.2) →
      ∃ v r st', validator v = Except.error r ∧
        callLlmWithRetry provider true promptGen parser validator stringify
            maxRetries useCache st =
          (RetryResult.fail (validationFailMsg r (strTake (stringify v) 500)), st') ∧
        st'.gwCalls = st.gwCalls + maxRetries := by
  intro provider promptGen parser validator stringify maxRetries useCache st
    hmax hval hprov hcache
  rw [callLlmWithRetry]
  exact retryGo_always_fail hval hprov maxRetries _ st hmax hcache

/-- Witness for C2: two attempts, a provider always answering a parseable
fenced block, a validator always failing with reason "bad"; the loop
fails with that reason in the recorded message and the gateway is invoked
exactly twice. -/
theorem claim_C2_witness :
    ∃ v r st',
      (fun _ : String => (Except.error "bad" : Except String String)) v =
        Except.error r ∧
      callLlmWithRetry (fun _ _ => ProviderOutcome.ok "```yaml\nx\n```") true
          (fun _ => "p") (fun b => Except.ok b)
          (fun _ : String => (Except.error "bad" : Except String String))
          (fun s => s) 2 true ⟨[], 0, 0⟩ =
        (RetryResult.fail (validationFailMsg r (strTake ((fun s => s) v) 500)),
         st') ∧
      st'.gwCalls = (⟨[], 0, 0⟩ : GwState).gwCalls + 2 :=
  claim_C2_retry_exhaustion (fun _ _ => ProviderOutcome.ok "```yaml\nx\n```")
    (fun _ => "p") (fun b => Except.ok b) (fun _ => Except.error "bad")
    (fun s => s) 2 true ⟨[], 0, 0⟩ (by omega)
    (fun v => ⟨"bad", rfl⟩)
    (fun k q => ⟨"```yaml\nx\n```", rfl, by decide, "x", by decide, "x", rfl⟩)
    (by simp)

/-! ### Claim C10 — a cached response freezes all remaining attempts -/

/-- The error the loop records on an attempt whose gateway call succeeds
with response `text`, when that text fails extraction, parsing or
validation (`none` when the attempt would instead succeed). -/
def attemptErrorFor {T U : Type} (parser : String → Except String T)
    (validator : T → Except String U) (stringify : T → String)
    (text : String) : Option String :=
  match extractYamlBlock text with
  | none => some (parseFailMsg noYamlBlockMsg text)
  | some block =>
    match parser block with
    | Except.error m => some (parseFailMsg m text)
    | Except.ok v =>
      match validator v with
      | Except.ok _ => none
      | Except.error reason =>
        some (validationFailMsg reason (strTake (stringify v) 500))

/-- A cache hit returns the cached text and only bumps the invocation
counter. -/
theorem callLlm_cache_hit {provider : Nat → String → ProviderOutcome}
    {p R : String} {st : GwState} (h : cacheGet st.cache p = some R) :
    callLlm provider true p true st =
      ({ success := true, text := some R, error := none },
       { st with gwCalls := st.gwCalls + 1 }) := by
  obtain ⟨cache, pc, gc⟩ := st
  simp only [] at h
  simp [callLlm, h]

/-- A successful cache-enabled gateway call leaves its response in the
cache under the prompt. -/
theorem callLlm_success_cacheGet {provider : Nat → String → ProviderOutcome}
    {init : Bool} {p t : String} {st st' : GwState} {r : LlmCallResult}
    (h : callLlm provider init p true st = (r, st'))
    (hs : r.success = true) (ht : r.text = some t) :
    cacheGet st'.cache p = some t := by
  obtain ⟨cache, pc, gc⟩ := st
  by_cases hinit : init
  · subst hinit
    by_cases hhit : (cacheGet cache p).isSome
    · obtain ⟨c, hc⟩ := Option.isSome_iff_exists.mp hhit
      rw [@callLlm_cache_hit provider p c ⟨cache, pc, gc⟩ hc] at h
      rw [Prod.mk.injEq] at h
      obtain ⟨h1, h2⟩ := h
      rw [← h1] at ht
      simp at ht
      rw [← h2]
      rw [hc, ht]
    · rcases houtcome : provider pc p with t' | mer
      · by_cases ht0 : t' = ""
        · subst ht0
          simp only [callLlm, not_true, if_false, hhit, and_false, houtcome,
            if_true] at h
          rw [Prod.mk.injEq] at h
          obtain ⟨h1, _⟩ := h
          rw [← h1] at hs
          simp at hs
        · simp only [callLlm, not_true, if_false, hhit, and_false, houtcome,
            ht0, if_false, if_true] at h
          rw [Prod.mk.injEq] at h
          obtain ⟨h1, h2⟩ := h
          rw [← h1] at ht
          simp at ht
          subst ht
          rw [← h2]
          simp [cacheGet]
      · simp only [callLlm, not_true, if_false, hhit, and_false, houtcome,
          if_true] at h
        rw [Prod.mk.injEq] at h
        obtain ⟨h1, _⟩ := h
        rw [← h1] at hs
        simp at hs
  · simp only [callLlm, hinit, not_false_iff, if_true] at h
    rw [Prod.mk.injEq] at h
    obtain ⟨h1, _⟩ := h
    rw [← h1] at hs
    simp at hs

theorem retryGo_cached_poison {T U : Type}
    {provider : Nat → String → ProviderOutcome} {promptGen : Nat → String}
    {parser : String → Except String T} {validator : T → Except String U}
    {stringify : T → String} {maxRetries : Nat} {p R errMsg : String}
    (hconst : ∀ i, promptGen i = p) (hR : R ≠ "")
    (herr : attemptErrorFor parser validator stringify R = some errMsg) :
    ∀ (fuel : Nat) (lastErr : String) (st : GwState), 1 ≤ fuel →
      cacheGet st.cache p = some R →
      retryGo provider true promptGen parser validator stringify maxRetries
          true fuel lastErr st =
        (RetryResult.fail errMsg, { st with gwCalls := st.gwCalls + fuel }) := by
  intro fuel
  induction fuel with
  | zero => intro lastErr st h; omega
  | succ f ihf =>
    intro lastErr st _ hcached
    have harith : st.gwCalls + 1 + f = st.gwCalls + (f + 1) := by omega
    rw [retryGo, hconst, callLlm_cache_hit hcached]
    simp only [if_neg hR]
    rw [attemptErrorFor] at herr
    rcases hx : extractYamlBlock R with _ | block
    · rw [hx] at herr
      injection herr with herr
      subst herr
      simp only []
      rcases Nat.eq_zero_or_pos f with rfl | hf
      · rw [retryGo]
      · rw [ihf _ ⟨st.cache, st.providerCalls, st.gwCalls + 1⟩ hf hcached, harith]
    · rw [hx] at herr
      simp only [] at herr
      simp only []
      rcases hp : parser block with m | v
      · rw [hp] at herr
        simp only [] at herr
        injection herr with herr
        subst herr
        simp only []
        rcases Nat.eq_zero_or_pos f with rfl | hf
        · rw [retryGo]
        · rw [ihf _ ⟨st.cache, st.providerCalls, st.gwCalls + 1⟩ hf hcached, harith]
      · rw [hp] at herr
        simp only [] at herr
        simp only []
        rcases hv : validator v with r | u
        case error =>
          rw [hv] at herr
          simp only [] at herr
          injection herr with herr
          subst herr
          simp only []
          rcases Nat.eq_zero_or_pos f with rfl | hf
          · rw [retryGo]
          · rw [ihf _ ⟨st.cache, st.providerCalls, st.gwCalls + 1⟩ hf hcached, harith]
        case ok =>
          rw [hv] at herr
          exact absurd herr (by simp)

/-- **C10**: in a cache-enabled Retry-Validate run whose prompt factory
returns the identical prompt on every attempt, once a gateway call
succeeds with (nonempty) response `R` — which the gateway wrote to, or
read from, the cache — every remaining attempt is served exactly `R` from
the cache with no provider request (the continuation's provider oracle is
universally quantified and the provider-call counter and cache are
unchanged); hence if `R` fails extraction, parsing or validation, every
remaining attempt records the same failure and the loop exhausts its full
attempt budget. -/
theorem claim_C10_cached_failure_exhausts_attempts {T U : Type} :
    ∀ (provider provider' : Nat → String → ProviderOutcome)
      (promptGen : Nat → String) (parser : String → Except String T)
      (validator : T → Except String U) (stringify : T → String)
      (maxRetries fuel : Nat) (p R errMsg lastErr : String)
      (st0 st1 : GwState) (r0 : LlmCallResult),
      (∀ i, promptGen i = p) →
      callLlm provider true p true st0 = (r0, st1) →
      r0.success = true → r0.text = some R → R ≠ "" →
      attemptErrorFor parser validator stringify R = some errMsg →
      1 ≤ fuel →
      retryGo provider' true promptGen parser validator stringify maxRetries
          true fuel lastErr st1 =
        (RetryResult.fail errMsg, { st1 with gwCalls := st1.gwCalls + fuel }) := by
  intro provider provider' promptGen parser validator stringify maxRetries fuel
    p R errMsg lastErr st0 st1 r0 hconst hcall hs ht hR herr hfuel
  exact retryGo_cached_poison hconst hR herr fuel lastErr st1 hfuel
    (callLlm_success_cacheGet hcall hs ht)

/-- Witness for C10: after a successful first gateway call caches a
response whose YAML block fails the validator, a 2-attempt continuation
(with a *different, always-failing* provider oracle) fails twice with the
same recorded reason, never touches the provider, and exhausts its
budget. -/
theorem claim_C10_witness :
    retryGo (fun _ _ => ProviderOutcome.err "down") true (fun _ => "p")
        (fun b => Except.ok b)
        (fun _ : String => (Except.error "bad" : Except String String))
        (fun s => s) 2 true 2 "Failed after multiple retries."
        ⟨[("p", "```yaml\nx\n```")], 1, 1⟩ =
      (RetryResult.fail (validationFailMsg "bad" (strTake "x" 500)),
       { cache := [("p", "```yaml\nx\n```")], providerCalls := 1, gwCalls := 3 }) :=
  claim_C10_cached_failure_exhausts_attempts
    (fun _ _ => ProviderOutcome.ok "```yaml\nx\n```")
    (fun _ _ => ProviderOutcome.err "down") (fun _ => "p") (fun b => Except.ok b)
    (fun _ => Except.error "bad") (fun s => s) 2 2 "p" "```yaml\nx\n```"
    (validationFailMsg "bad" (strTake "x" 500)) "Failed after multiple retries."
    ⟨[], 0, 0⟩ ⟨[("p", "```yaml\nx\n```")], 1, 1⟩
    { success := true, text := some "```yaml\nx\n```", error := none }
    (fun _ => rfl) (by decide) rfl rfl (by decide) (by decide) (by omega)

/-! ### Claim C9 — stage failure aborts the run; no partial output -/

theorem writeChaptersLoop_ok_length {provider : Nat → String → ProviderOutcome}
    {init : Bool} {chPrompt : Nat → String → String → String} :
    ∀ (infos : List ChapterInfo) (prev : String) (st : GwState)
      (bodies : List String) (st' : GwState),
      writeChaptersLoop provider init chPrompt infos prev st =
        (Except.ok bodies, st') →
      bodies.length = infos.length := by
  intro infos
  induction infos with
  | nil =>
    intro prev st bodies st' h
    rw [writeChaptersLoop] at h
    rw [Prod.mk.injEq] at h
    obtain ⟨h1, _⟩ := h
    injection h1 with h1
    subst h1
    rfl
  | cons info rest ih =>
    intro prev st bodies st' h
    rw [writeChaptersLoop] at h
    rcases hr : (callLlmWithRetry provider init
        (fun _ => chPrompt info.num info.name prev) (fun t => Except.ok t)
        (chapterValidator info.num info.name) (fun s => s) 3 false st).1
      with body | e
    · rw [hr] at h
      simp only [] at h
      rcases hrec : writeChaptersLoop provider init chPrompt rest
          (prev ++ "\n\n---\n\n" ++ withAttribution body)
          (callLlmWithRetry provider init
            (fun _ => chPrompt info.num info.name prev) (fun t => Except.ok t)
            (chapterValidator info.num info.name) (fun s => s) 3 false st).2
        with ⟨res, stL⟩
      rw [hrec] at h
      rcases res with e | tail
      · simp only [] at h
        rw [Prod.mk.injEq] at h
        exact absurd h.1 (by simp)
      · simp only [] at h
        rw [Prod.mk.injEq] at h
        obtain ⟨h1, _⟩ := h
        injection h1 with h1
        subst h1
        simp [ih _ _ _ _ hrec]
    · rw [hr] at h
      simp only [] at h
      rw [Prod.mk.injEq] at h
      exact absurd h.1 (by simp)

/-- The chapter-failure message shape. -/
def chapterFailMsg (num : Nat) (name e : String) : String :=
  "Failed to write chapter " ++ natDecimalStr num ++ " (" ++ name ++ "): " ++ e

theorem writeChaptersLoop_error_shape {provider : Nat → String → ProviderOutcome}
    {init : Bool} {chPrompt : Nat → String → String → String} :
    ∀ (infos : List ChapterInfo) (prev : String) (st : GwState)
      (e : String) (st' : GwState),
      writeChaptersLoop provider init chPrompt infos prev st =
        (Except.error e, st') →
      ∃ num name e', e = chapterFailMsg num name e' := by
  intro infos
  induction infos with
  | nil =>
    intro prev st e st' h
    rw [writeChaptersLoop] at h
    rw [Prod.mk.injEq] at h
    exact absurd h.1 (by simp)
  | cons info rest ih =>
    intro prev st e st' h
    rw [writeChaptersLoop] at h
    rcases hr : (callLlmWithRetry provider init
        (fun _ => chPrompt info.num info.name prev) (fun t => Except.ok t)
        (chapterValidator info.num info.name) (fun s => s) 3 false st).1
      with body | e0
    · rw [hr] at h
      simp only [] at h
      rcases hrec : writeChaptersLoop provider init chPrompt rest
          (prev ++ "\n\n---\n\n" ++ withAttribution body)
          (callLlmWithRetry provider init
            (fun _ => chPrompt info.num info.name prev) (fun t => Except.ok t)
            (chapterValidator info.num info.name) (fun s => s) 3 false st).2
        with ⟨res, stL⟩
      rw [hrec] at h
      rcases res with e1 | tail
      · simp only [] at h
        rw [Prod.mk.injEq] at h
        obtain ⟨h1, _⟩ := h
        injection h1 with h1
        subst h1
        exact ih _ _ _ _ hrec
      · simp only [] at h
        rw [Prod.mk.injEq] at h
        exact absurd h.1 (by simp)
    · rw [hr] at h
      simp only [] at h
      rw [Prod.mk.injEq] at h
      obtain ⟨h1, _⟩ := h
      injection h1 with h1
      exact ⟨info.num, info.name, e0, h1.symm⟩

/-- **C9**: whenever the pipeline driver returns a failure, the single
failure reason names the failing stage (Discovery, Inference, Ordering,
or a specific chapter) and carries the loop's last recorded error; no
documents accompany a failure (the result type carries either the error
or the documents), and on success the document set is complete: one body
per derived chapter. -/
theorem claim_C9_all_or_nothing :
    ∀ (provider : Nat → String → ProviderOutcome) (init : Bool)
      (fileCount : Nat) (absPrompt : String)
      (relPrompt : List Abstraction → String)
      (orderPrompt : RelationshipData → String)
      (chPrompt : Nat → String → String → String)
      (yamlAbs : String → Except String (List RawAbstraction))
      (yamlRel : String → Except String RawRelationshipData)
      (yamlOrder : String → Except String (List IdxVal))
      (strAbs : List RawAbstraction → String)
      (strRel : RawRelationshipData → String)
      (strOrder : List IdxVal → String) (st : GwState),
      (∀ e st', runPipeline provider init fileCount absPrompt relPrompt
          orderPrompt chPrompt yamlAbs yamlRel yamlOrder strAbs strRel strOrder
          st = (Except.error e, st') →
        (∃ e', e = "Failed to identify abstractions: " ++ e') ∨
        (∃ e', e = "Failed to analyze relationships: " ++ e') ∨
        (∃ e', e = "Failed to order chapters: " ++ e') ∨
        (∃ num name e', e = chapterFailMsg num name e')) ∧
      (∀ docs st', runPipeline provider init fileCount absPrompt relPrompt
          orderPrompt chPrompt yamlAbs yamlRel yamlOrder strAbs strRel strOrder
          st = (Except.ok docs, st') →
        docs.chapterBodies.length = docs.chapterInfos.length) := by
  intro provider init fileCount absPrompt relPrompt orderPrompt chPrompt
    yamlAbs yamlRel yamlOrder strAbs strRel strOrder st
  constructor
  · intro e st' h
    rw [runPipeline] at h
    rcases hAbs : (callLlmWithRetry provider init (fun _ => absPrompt) yamlAbs
        (abstractionsValidator fileCount) strAbs 3 true st).1 with abstractions | e1
    · rw [hAbs] at h
      simp only [] at h
      rcases hRel : (callLlmWithRetry provider init
          (fun _ => relPrompt abstractions) yamlRel
          (relationshipsValidator abstractions.length) strRel 3 true
          (callLlmWithRetry provider init (fun _ => absPrompt) yamlAbs
            (abstractionsValidator fileCount) strAbs 3 true st).2).1
        with relationships | e2
      · rw [hRel] at h
        simp only [] at h
        rcases hOrd : (callLlmWithRetry provider init
            (fun _ => orderPrompt relationships) yamlOrder
            (chapterOrderValidator abstractions.length) strOrder 3 true
            (callLlmWithRetry provider init
              (fun _ => relPrompt abstractions) yamlRel
              (relationshipsValidator abstractions.length) strRel 3 true
              (callLlmWithRetry provider init (fun _ => absPrompt) yamlAbs
                (abstractionsValidator fileCount) strAbs 3 true st).2).2).1
          with orderedRaw | e3
        · rw [hOrd] at h
          simp only [] at h
          rcases hLoop : writeChaptersLoop provider init chPrompt
              (deriveChapterInfos abstractions
                (orderedRaw.map (fun entry => (canonIdx entry).getD (-1)))) ""
              (callLlmWithRetry provider init
                (fun _ => orderPrompt relationships) yamlOrder
                (chapterOrderValidator abstractions.length) strOrder 3 true
                (callLlmWithRetry provider init
                  (fun _ => relPrompt abstractions) yamlRel
                  (relationshipsValidator abstractions.length) strRel 3 true
                  (callLlmWithRetry provider init (fun _ => absPrompt) yamlAbs
                    (abstractionsValidator fileCount) strAbs 3 true st).2).2).2
            with ⟨res, stL⟩
          rw [hLoop] at h
          rcases res with e4 | bodies
          · simp only [] at h
            rw [Prod.mk.injEq] at h
            obtain ⟨h1, _⟩ := h
            injection h1 with h1
            subst h1
            exact Or.inr (Or.inr (Or.inr
              (writeChaptersLoop_error_shape _ _ _ _ _ hLoop)))
          · simp only [] at h
            rw [Prod.mk.injEq] at h
            exact absurd h.1 (by simp)
        · rw [hOrd] at h
          simp only [] at h
          rw [Prod.mk.injEq] at h
          obtain ⟨h1, _⟩ := h
          injection h1 with h1
          exact Or.inr (Or.inr (Or.inl ⟨e3, h1.symm⟩))
      · rw [hRel] at h
        simp only [] at h
        rw [Prod.mk.injEq] at h
        obtain ⟨h1, _⟩ := h
        injection h1 with h1
        exact Or.inr (Or.inl ⟨e2, h1.symm⟩)
    · rw [hAbs] at h
      simp only [] at h
      rw [Prod.mk.injEq] at h
      obtain ⟨h1, _⟩ := h
      injection h1 with h1
      exact Or.inl ⟨e1, h1.symm⟩
  · intro docs st' h
    rw [runPipeline] at h
    rcases hAbs : (callLlmWithRetry provider init (fun _ => absPrompt) yamlAbs
        (abstractionsValidator fileCount) strAbs 3 true st).1 with abstractions | e1
    · rw [hAbs] at h
      simp only [] at h
      rcases hRel : (callLlmWithRetry provider init
          (fun _ => relPrompt abstractions) yamlRel
          (relationshipsValidator abstractions.length) strRel 3 true
          (callLlmWithRetry provider init (fun _ => absPrompt) yamlAbs
            (abstractionsValidator fileCount) strAbs 3 true st).2).1
        with relationships | e2
      · rw [hRel] at h
        simp only [] at h
        rcases hOrd : (callLlmWithRetry provider init
            (fun _ => orderPrompt relationships) yamlOrder
            (chapterOrderValidator abstractions.length) strOrder 3 true
            (callLlmWithRetry provider init
              (fun _ => relPrompt abstractions) yamlRel
              (relationshipsValidator abstractions.length) strRel 3 true
              (callLlmWithRetry provider init (fun _ => absPrompt) yamlAbs
                (abstractionsValidator fileCount) strAbs 3 true st).2).2).1
          with orderedRaw | e3
        · rw [hOrd] at h
          simp only [] at h
          rcases hLoop : writeChaptersLoop provider init chPrompt
              (deriveChapterInfos abstractions
                (orderedRaw.map (fun entry => (canonIdx entry).getD (-1)))) ""
              (callLlmWithRetry provider init
                (fun _ => orderPrompt relationships) yamlOrder
                (chapterOrderValidator abstractions.length) strOrder 3 true
                (callLlmWithRetry provider init
                  (fun _ => relPrompt abstractions) yamlRel
                  (relationshipsValidator abstractions.length) strRel 3 true
                  (callLlmWithRetry provider init (fun _ => absPrompt) yamlAbs
                    (abstractionsValidator fileCount) strAbs 3 true st).2).2).2
            with ⟨res, stL⟩
          rw [hLoop] at h
          rcases res with e4 | bodies
          · simp only [] at h
            rw [Prod.mk.injEq] at h
            exact absurd h.1 (by simp)
          · simp only [] at h
            rw [Prod.mk.injEq] at h
            obtain ⟨h1, _⟩ := h
            injection h1 with h1
            subst h1
            exact writeChaptersLoop_ok_length _ _ _ _ _ hLoop
        · rw [hOrd] at h
          simp only [] at h
          rw [Prod.mk.injEq] at h
          exact absurd h.1 (by simp)
      · rw [hRel] at h
        simp only [] at h
        rw [Prod.mk.injEq] at h
        exact absurd h.1 (by simp)
    · rw [hAbs] at h
      simp only [] at h
      rw [Prod.mk.injEq] at h
      exact absurd h.1 (by simp)

/-- Witness for C9: a provider that always fails makes the Discovery
stage exhaust its budget, and the whole run aborts with a single reason
naming that stage and carrying the last gateway error. -/
theorem claim_C9_witness :
    (∃ e', "Failed to identify abstractions: boom" =
      "Failed to identify abstractions: " ++ e') ∨
    (∃ e', "Failed to identify abstractions: boom" =
      "Failed to analyze relationships: " ++ e') ∨
    (∃ e', "Failed to identify abstractions: boom" =
      "Failed to order chapters: " ++ e') ∨
    (∃ num name e', "Failed to identify abstractions: boom" =
      chapterFailMsg num name e') :=
  (claim_C9_all_or_nothing (fun _ _ => ProviderOutcome.err "boom") true 1 "ap"
    (fun _ => "rp") (fun _ => "op") (fun _ _ _ => "cp")
    (fun _ => Except.error "unused") (fun _ => Except.error "unused")
    (fun _ => Except.error "unused")
    (fun _ => "") (fun _ => "") (fun _ => "") ⟨[], 0, 0⟩).1
    "Failed to identify abstractions: boom" ⟨[], 3, 3⟩ rfl
